import Mathlib

/-!
# Verification of the OBJ → BSP conversion pipeline

A shallow embedding, in Lean 4, of the BSP core of the `OBJ-3D-Display`
repository: plane computation (`face_plane`), face classification
(`classify_face`), the iterative work-list BSP builder (`build_bsp` of
`BSP/obj_to_bsp.py`), the tree flattener (`FlatBSP.flatten` /
`FlatBSP.find_face_idx`), and the fixed-layout binary encoder
(`write_bsp_binary`).

Conventions of the embedding:
* Python floats are read as exact rationals (`ℚ`); all integer fields are
  `Nat`/`Int` with the exact range checks that `struct.pack` performs.
* Vertex list indexing `vertices[i]` is embedded as `vtx`, a total lookup
  with a default; the theorems that depend on indices being in range carry
  that hypothesis explicitly.
* Loops that Python runs until a work list empties are embedded as
  structural recursion on an explicit fuel argument; every call site passes
  a fuel that is proved (or chosen) large enough, so the fueled function
  agrees with the unbounded loop of the source.
-/

-- Batteries marks the arithmetic on `ℚ` `@[irreducible]`, which blocks
-- kernel evaluation of the embedded program on concrete inputs; restore the
-- definitional behaviour for this file.
attribute [local semireducible] Rat.mul Rat.add Rat.sub Rat.inv Rat.ofScientific

-- Needed to state and decide concrete equalities about fallible results.
deriving instance DecidableEq for Except

/-- A vertex: three rational coordinates (source: `[x, y, z]` lists). -/
abbrev Vec3 : Type := ℚ × ℚ × ℚ

/-- A face: an ordered list of 0-based vertex indices (source: `[i1, i2, ...]`). -/
abbrev Face : Type := List Nat

/-- Total vertex lookup: `vertices[i]`, with `(0,0,0)` as the out-of-range
default (the source would raise `IndexError`; the theorems that need it
assume indices are in range). -/
def vtx (vertices : List Vec3) (i : Nat) : Vec3 :=
  vertices.getD i (0, 0, 0)

/-- Componentwise subtraction of 3-vectors. -/
def subv (a b : Vec3) : Vec3 :=
  (a.1 - b.1, a.2.1 - b.2.1, a.2.2 - b.2.2)

/-- Dot product of 3-vectors. -/
def dotv (a b : Vec3) : ℚ :=
  a.1 * b.1 + a.2.1 * b.2.1 + a.2.2 * b.2.2

/-- Cross product of 3-vectors (source: the unrolled `nx, ny, nz`). -/
def crossv (u v : Vec3) : Vec3 :=
  (u.2.1 * v.2.2 - u.2.2 * v.2.1,
   u.2.2 * v.1 - u.1 * v.2.2,
   u.1 * v.2.1 - u.2.1 * v.1)

/-- Squared Euclidean norm (source: `nx*nx + ny*ny + nz*nz`, the quantity
whose square root the source calls `norm`). -/
def nsq (a : Vec3) : ℚ :=
  a.1 * a.1 + a.2.1 * a.2.1 + a.2.2 * a.2.2

/-- The classification tolerance `epsilon = 1e-5` of the source. -/
def epsln : ℚ := 1 / 100000

/-- A plane: reference point plus a (not necessarily unit) normal.

The source stores the normal divided by `norm = sqrt(nsq n)`.  Over exact
arithmetic that scaling is irrational, so the embedding stores the
unnormalized cross product (or the exactly-unit default `(0,0,1)` in the
degenerate branch) and folds the division by `norm` into the classification
comparisons, which is an equivalent formulation: for `‖n‖ > 0`,
`dot/‖n‖ > ε ↔ (0 < dot ∧ ε²·‖n‖² < dot²)`. -/
structure RawPlane where
  point : Vec3
  normal : Vec3
deriving DecidableEq

/-- Placeholder plane used as the (never semantically relevant) default of
out-of-range plane-list reads. -/
def dfltPlane : RawPlane :=
  { point := (0, 0, 0), normal := (0, 0, 1) }

/-- `face_plane`, core computation (source lines 206–233 of
`BSP/obj_to_bsp.py`): plane through the first three vertices; if the cross
product has zero magnitude the normal defaults to `(0,0,1)`. -/
def face_planeCore (face : Face) (vertices : List Vec3) : RawPlane :=
  let p0 := vtx vertices (face.getD 0 0)
  let p1 := vtx vertices (face.getD 1 0)
  let p2 := vtx vertices (face.getD 2 0)
  let n := crossv (subv p1 p0) (subv p2 p0)
  if nsq n = 0 then { point := p0, normal := (0, 0, 1) }
  else { point := p0, normal := n }

/-- `face_plane` (source lines 199–233 of `BSP/obj_to_bsp.py`, identical in
`BSP/build_bsp.py`): raises `ValueError` when the face has fewer than three
vertices, otherwise returns the plane. -/
def face_plane (face : Face) (vertices : List Vec3) : Except String RawPlane :=
  if face.length < 3 then .error "Face must have at least 3 vertices"
  else .ok (face_planeCore face vertices)

/-- Signed (unnormalized) distance of a point from a plane: the source's
`d = (p - point) · normal` before the normal is scaled to unit length. -/
def sdist (pl : RawPlane) (p : Vec3) : ℚ :=
  dotv (subv p pl.point) pl.normal

/-- The source's test `d > epsilon` (with `d` measured against the unit
normal), expressed without the square root: for a nonzero stored normal,
`dot/‖n‖ > ε ↔ 0 < dot ∧ ε²‖n‖² < dot²`. -/
def frontTest (pl : RawPlane) (p : Vec3) : Bool :=
  decide (0 < sdist pl p ∧ epsln ^ 2 * nsq pl.normal < sdist pl p ^ 2)

/-- The source's test `d < -epsilon`, expressed without the square root. -/
def backTest (pl : RawPlane) (p : Vec3) : Bool :=
  decide (sdist pl p < 0 ∧ epsln ^ 2 * nsq pl.normal < sdist pl p ^ 2)

/-- One step of the classification loop body (source: the
`if d > epsilon: front = True / elif d < -epsilon: back = True` body). -/
def classifyStep (pl : RawPlane) (vertices : List Vec3) (fb : Bool × Bool)
    (idx : Nat) : Bool × Bool :=
  let p := vtx vertices idx
  if frontTest pl p then (true, fb.2)
  else if backTest pl p then (fb.1, true)
  else fb

/-- The `(front, back)` flags computed by `classify_face`'s loop
(source `BSP/build_bsp.py` lines 72–79, no early exit). -/
def classifyFlags (face : Face) (pl : RawPlane) (vertices : List Vec3) :
    Bool × Bool :=
  face.foldl (classifyStep pl vertices) (false, false)

/-- The `(front, back)` flags computed by the inlined classification loop of
the iterative builder (source `BSP/obj_to_bsp.py` lines 334–345), which
breaks out of the loop as soon as both flags are set. -/
def classifyFlagsEarly (pl : RawPlane) (vertices : List Vec3) :
    List Nat → Bool → Bool → Bool × Bool
  | [], f, b => (f, b)
  | idx :: rest, f, b =>
    let p := vtx vertices idx
    if frontTest pl p then
      (if b then (true, true) else classifyFlagsEarly pl vertices rest true b)
    else if backTest pl p then
      (if f then (true, true) else classifyFlagsEarly pl vertices rest f true)
    else classifyFlagsEarly pl vertices rest f b

/-- Classification result of a face against a plane. -/
inductive FClass where
  | front
  | back
  | on
  | spanning
deriving DecidableEq

/-- `classify_face` (source `BSP/obj_to_bsp.py` lines 236–262 /
`BSP/build_bsp.py` lines 68–87): front / back / on / spanning from the two
flags. -/
def classify_face (face : Face) (pl : RawPlane) (vertices : List Vec3) :
    FClass :=
  let fb := classifyFlags face pl vertices
  if fb.1 && !fb.2 then .front
  else if fb.2 && !fb.1 then .back
  else if !fb.1 && !fb.2 then .on
  else .spanning

-- Once both flags are set, the remaining iterations of the
-- classification loop cannot change them.
theorem classifyStep_tt (pl : RawPlane) (vertices : List Vec3) (l : List Nat) :
    l.foldl (classifyStep pl vertices) (true, true) = (true, true) := by
  induction l with
  | nil => rfl
  | cons i rest ih =>
      simp only [List.foldl_cons, classifyStep]
      split <;> simp [ih]

/-- The early-exit flags agree with the straight-line flags. -/
theorem classifyFlagsEarly_eq (pl : RawPlane) (vertices : List Vec3)
    (l : List Nat) (f b : Bool) :
    classifyFlagsEarly pl vertices l f b =
      l.foldl (classifyStep pl vertices) (f, b) := by
  induction l generalizing f b with
  | nil => rfl
  | cons i rest ih =>
      simp only [classifyFlagsEarly, List.foldl_cons, classifyStep]
      by_cases hf : frontTest pl (vtx vertices i)
      · simp only [hf, if_pos]
        cases b with
        | false => simp [ih]
        | true =>
            cases f <;> simp [classifyStep_tt, ih]
      · by_cases hb : backTest pl (vtx vertices i)
        · simp only [hf, hb, if_neg, if_pos, Bool.false_eq_true]
          cases f with
          | false => simp [ih]
          | true => simp [classifyStep_tt, ih]
        · simp [hf, hb, ih]

theorem classify_face_on_sample : classify_face [0, 1, 2]
    { point := (0, 0, 0), normal := (0, 0, 1) }
    [(0, 0, 0), (1, 0, 0), (0, 1, 0)] = .on := by decide

theorem classify_face_spanning_sample : classify_face [0, 1]
    { point := (0, 0, 0), normal := (0, 0, 1) }
    [(0, 0, 1), (0, 0, -1)] = .spanning := by decide

/-!
## The BSP tree and the two constructions

`BSPTree.nil` stands for Python's `None` (absent child / empty face set).
-/

/-- A linked BSP node as built by the source: the splitting face (by
content), the faces coplanar with it (by content), and the two optional
children (`nil` = Python `None`). -/
inductive BSPTree where
  | nil : BSPTree
  | node (plane_face : Face) (faces_on_plane : List Face)
      (front : BSPTree) (back : BSPTree) : BSPTree
deriving DecidableEq

/-- Number of nodes of a tree. -/
def bsize : BSPTree → Nat
  | .nil => 0
  | .node _ _ f b => 1 + bsize f + bsize b

/-- The classification-and-partition loop of the iterative builder
(source `BSP/obj_to_bsp.py` lines 325–354): the remaining indices
`idx_list[1:]` are split into `(idx_on-tail, idx_front, idx_back)`;
a face seen on both sides (spanning) goes to the front partition. -/
def partitionIdx (faces : List Face) (pl : RawPlane) (vertices : List Vec3) :
    List Nat → List Nat × List Nat × List Nat
  | [] => ([], [], [])
  | fi :: rest =>
    let prt := partitionIdx faces pl vertices rest
    let fb := classifyFlagsEarly pl vertices (faces.getD fi []) false false
    if fb.1 && fb.2 then (prt.1, fi :: prt.2.1, prt.2.2)
    else if fb.1 then (prt.1, fi :: prt.2.1, prt.2.2)
    else if fb.2 then (prt.1, prt.2.1, fi :: prt.2.2)
    else (fi :: prt.1, prt.2.1, prt.2.2)

/-- The per-face classification dispatch of the specification's builder
(§4.2/§4.3: classify each face; `on` joins the coplanar set, spanning faces
join the Front partition, front to Front, back to Back). -/
def partitionFacesSpec (pl : RawPlane) (vertices : List Vec3) :
    List Face → List Face × List Face × List Face
  | [] => ([], [], [])
  | f :: rest =>
    let prt := partitionFacesSpec pl vertices rest
    match classify_face f pl vertices with
    | .on => (f :: prt.1, prt.2.1, prt.2.2)
    | .front => (prt.1, f :: prt.2.1, prt.2.2)
    | .back => (prt.1, prt.2.1, f :: prt.2.2)
    | .spanning => (prt.1, f :: prt.2.1, prt.2.2)

theorem partitionIdx_lengths (faces : List Face) (pl : RawPlane)
    (vertices : List Vec3) (l : List Nat) :
    (partitionIdx faces pl vertices l).1.length
      + (partitionIdx faces pl vertices l).2.1.length
      + (partitionIdx faces pl vertices l).2.2.length = l.length := by
  induction l with
  | nil => rfl
  | cons fi rest ih =>
      simp only [partitionIdx]
      split
      · simp only [List.length_cons]
        omega
      · split
        · simp only [List.length_cons]
          omega
        · split
          · simp only [List.length_cons]
            omega
          · simp only [List.length_cons]
            omega

theorem partitionFacesSpec_lengths (pl : RawPlane) (vertices : List Vec3)
    (l : List Face) :
    (partitionFacesSpec pl vertices l).1.length
      + (partitionFacesSpec pl vertices l).2.1.length
      + (partitionFacesSpec pl vertices l).2.2.length = l.length := by
  induction l with
  | nil => rfl
  | cons f rest ih =>
      simp only [partitionFacesSpec]
      split <;> simp only [List.length_cons] <;> omega

theorem partitionIdx_front_le (faces : List Face) (pl : RawPlane)
    (vertices : List Vec3) (l : List Nat) :
    (partitionIdx faces pl vertices l).2.1.length ≤ l.length := by
  have h := partitionIdx_lengths faces pl vertices l
  omega

theorem partitionIdx_back_le (faces : List Face) (pl : RawPlane)
    (vertices : List Vec3) (l : List Nat) :
    (partitionIdx faces pl vertices l).2.2.length ≤ l.length := by
  have h := partitionIdx_lengths faces pl vertices l
  omega

theorem partitionFacesSpec_front_le (pl : RawPlane) (vertices : List Vec3)
    (l : List Face) :
    (partitionFacesSpec pl vertices l).2.1.length ≤ l.length := by
  have h := partitionFacesSpec_lengths pl vertices l
  omega

theorem partitionFacesSpec_back_le (pl : RawPlane) (vertices : List Vec3)
    (l : List Face) :
    (partitionFacesSpec pl vertices l).2.2.length ≤ l.length := by
  have h := partitionFacesSpec_lengths pl vertices l
  omega

/-- The specification's recursive construction (§4.3 steps 1–4): pick the
first face as splitter, compute its plane once, classify every **other**
face (the splitter always joins the coplanar set), recurse on the Front and
Back partitions. -/
def buildSpecRec (vertices : List Vec3) : List Face → BSPTree
  | [] => .nil
  | splitter :: rest =>
    let pl := face_planeCore splitter vertices
    let prt := partitionFacesSpec pl vertices rest
    .node splitter (splitter :: prt.1)
      (buildSpecRec vertices prt.2.1) (buildSpecRec vertices prt.2.2)
termination_by l => l.length
decreasing_by
  all_goals
    simp only [List.length_cons]
    first
      | exact Nat.lt_succ_of_le (partitionFacesSpec_front_le _ _ _)
      | exact Nat.lt_succ_of_le (partitionFacesSpec_back_le _ _ _)

/-- Index-level recursive companion of the iterative builder: the same
per-node computations (`partitionIdx`, `faces[i]` lookups, precomputed
`planes`) as the work-list loop, expressed as structural recursion.  Used
as the bridge between the loop and `buildSpecRec`. -/
def buildRecIdx (faces : List Face) (planes : List RawPlane)
    (vertices : List Vec3) : List Nat → BSPTree
  | [] => .nil
  | fi :: fs =>
    let pl := planes.getD fi dfltPlane
    let prt := partitionIdx faces pl vertices fs
    .node (faces.getD fi []) ((fi :: prt.1).map (fun j => faces.getD j []))
      (buildRecIdx faces planes vertices prt.2.1)
      (buildRecIdx faces planes vertices prt.2.2)
termination_by l => l.length
decreasing_by
  all_goals
    simp only [List.length_cons]
    first
      | exact Nat.lt_succ_of_le (partitionIdx_front_le _ _ _ _)
      | exact Nat.lt_succ_of_le (partitionIdx_back_le _ _ _ _)

/-!
## The iterative work-list builder (`build_bsp`, `BSP/obj_to_bsp.py` 265–372)

Python builds the tree by mutating node dictionaries reached through
parent references.  The embedding replaces object identity by an arena:
nodes live in a list in creation order, and the parent's `front`/`back`
field holds the child's arena index.  A stack entry
`(parent, idx_list, field)` of the source becomes `(Slot, List Nat)`.
-/

/-- An arena node: `{'plane_face': ..., 'faces_on_plane': ..., 'front': ...,
'back': ...}`, with children as arena indices (`none` = Python `None`). -/
structure ANode where
  plane_face : Face
  faces_on_plane : List Face
  front : Option Nat
  back : Option Nat
deriving DecidableEq

/-- The `(parent, field)` part of a stack entry: either the root slot
(`parent is None`) or a `front`/`back` field of the node at a given arena
index. -/
inductive Slot where
  | root : Slot
  | child (parent : Nat) (isFront : Bool) : Slot
deriving DecidableEq

/-- Placeholder node used as the (never semantically relevant) default of
out-of-range arena reads. -/
def dfltANode : ANode :=
  { plane_face := [], faces_on_plane := [], front := none, back := none }

/-- Write `v` into the `front` (`isFront = true`) or `back` field of the
arena node at index `p` (the source's `parent[field] = node`). -/
def setChild (arena : List ANode) (p : Nat) (isFront : Bool)
    (v : Option Nat) : List ANode :=
  arena.set p
    (let nd := arena.getD p dfltANode
     if isFront then { nd with front := v } else { nd with back := v })

/-- The source's `if parent is None: root = node / else: parent[field] =
node`, for a freshly created node at index `v`. -/
def assignSlot (arena : List ANode) (slot : Slot) (v : Option Nat)
    (root : Option Nat) : List ANode × Option Nat :=
  match slot with
  | .root => (arena, v)
  | .child p isF => (setChild arena p isF v, root)

/-- The source's empty-work-list branch (`if not idx_list: parent[field] =
None`); for the root slot nothing happens (`parent is None`). -/
def clearSlot (arena : List ANode) (slot : Slot) (root : Option Nat) :
    List ANode × Option Nat :=
  match slot with
  | .root => (arena, root)
  | .child p isF => (setChild arena p isF none, root)

/-- The loop state: the arena, the explicit stack, and the root's arena
index (if assigned yet). -/
structure BState where
  arena : List ANode
  stack : List (Slot × List Nat)
  rootIdx : Option Nat
deriving DecidableEq

/-- The node the loop creates for a work-list entry headed by `fi`
(source lines 303–356: splitting face `faces[plane_idx]`, coplanar faces
`[faces[i] for i in idx_on]` with `idx_on = [plane_idx] ++ …`, children
still `None`). -/
def buildNode (faces : List Face) (planes : List RawPlane)
    (vertices : List Vec3) (fi : Nat) (fs : List Nat) : ANode :=
  let pl := planes.getD fi dfltPlane
  let prt := partitionIdx faces pl vertices fs
  { plane_face := faces.getD fi []
  , faces_on_plane := (fi :: prt.1).map (fun j => faces.getD j [])
  , front := none, back := none }

/-- The stack entries the loop pushes for the node created at index `i`
(source lines 358–367): the back entry is pushed first and the front entry
second, and the stack pops from the end, so in head-popped form the front
entry comes first; empty partitions push nothing and leave the child field
`None`. -/
def childEntries (faces : List Face) (planes : List RawPlane)
    (vertices : List Vec3) (fi : Nat) (fs : List Nat) (i : Nat) :
    List (Slot × List Nat) :=
  let prt := partitionIdx faces (planes.getD fi dfltPlane) vertices fs
  (if prt.2.1.isEmpty then [] else [(Slot.child i true, prt.2.1)])
    ++ (if prt.2.2.isEmpty then [] else [(Slot.child i false, prt.2.2)])

/-- The `while stack:` loop of the iterative builder, as structural
recursion on a fuel argument (each iteration consumes one unit; the caller
supplies enough fuel, see `build_bsp`). -/
def buildLoopF (faces : List Face) (planes : List RawPlane)
    (vertices : List Vec3) : Nat → BState → BState
  | 0, st => st
  | _ + 1, ⟨arena, [], root⟩ => ⟨arena, [], root⟩
  | fuel + 1, ⟨arena, (slot, []) :: rest, root⟩ =>
    let ar := clearSlot arena slot root
    buildLoopF faces planes vertices fuel ⟨ar.1, rest, ar.2⟩
  | fuel + 1, ⟨arena, (slot, fi :: fs) :: rest, root⟩ =>
    let i := arena.length
    let nd := buildNode faces planes vertices fi fs
    let ar := assignSlot (arena ++ [nd]) slot (some i) root
    buildLoopF faces planes vertices fuel
      ⟨ar.1, childEntries faces planes vertices fi fs i ++ rest, ar.2⟩

/-- Read the linked tree back out of the arena (fuel bounds the recursion
depth; the arena length suffices because children always have larger
indices than their parent). -/
def extractT (arena : List ANode) : Nat → Nat → BSPTree
  | 0, _ => .nil
  | fuel + 1, i =>
    match arena.get? i with
    | none => .nil
    | some nd =>
      .node nd.plane_face nd.faces_on_plane
        (match nd.front with
         | none => .nil
         | some j => extractT arena fuel j)
        (match nd.back with
         | none => .nil
         | some j => extractT arena fuel j)

/-- Read the whole tree from a finished build state. -/
def extract (arena : List ANode) (root : Option Nat) : BSPTree :=
  match root with
  | none => .nil
  | some i => extractT arena arena.length i

/-- The plane pre-computation loop (source lines 279–283): one
`face_plane` call per face, aborting on the first failure. -/
def mapPlanes (vertices : List Vec3) : List Face → Except String (List RawPlane)
  | [] => .ok []
  | f :: rest =>
    match face_plane f vertices with
    | .error e => .error e
    | .ok pl =>
      match mapPlanes vertices rest with
      | .error e => .error e
      | .ok pls => .ok (pl :: pls)

/-- `build_bsp` (source `BSP/obj_to_bsp.py` lines 265–372): `None` for an
empty face list; otherwise pre-compute all planes (`face_plane` raises here
if some face has fewer than three vertices), then run the work-list loop
starting from the full index list `range(total_faces)` and the root slot.
`2·faces.length + 1` units of fuel are enough: processing an index list of
length `n` takes at most `2·n + 1` loop iterations. -/
def build_bsp (faces : List Face) (vertices : List Vec3) :
    Except String BSPTree :=
  if faces.isEmpty then .ok .nil
  else
    match mapPlanes vertices faces with
    | .error e => .error e
    | .ok planes =>
      let st := buildLoopF faces planes vertices (2 * faces.length + 1)
        ⟨[], [(Slot.root, List.range faces.length)], none⟩
      .ok (extract st.arena st.rootIdx)

/-- The finished arena record of a tree node placed at index `base`:
children (when present) sit at `base + 1` and `base + 1 + bsize front`. -/
def emitHead (t : BSPTree) (base : Nat) : ANode :=
  match t with
  | .nil => dfltANode
  | .node pf fop f b =>
    { plane_face := pf, faces_on_plane := fop
    , front := if f = .nil then none else some (base + 1)
    , back := if b = .nil then none else some (base + 1 + bsize f) }

/-- The arena block that processing one stack entry ultimately appends:
node first, the whole front subtree next, the whole back subtree last
(the loop pops the front entry before the back entry). -/
def emitTree : BSPTree → Nat → List ANode
  | .nil, _ => []
  | .node pf fop f b, base =>
    emitHead (.node pf fop f b) base
      :: (emitTree f (base + 1) ++ emitTree b (base + 1 + bsize f))

theorem emitTree_length (t : BSPTree) (base : Nat) :
    (emitTree t base).length = bsize t := by
  induction t generalizing base with
  | nil => rfl
  | node pf fop f b ihf ihb =>
      simp only [emitTree, bsize, List.length_cons, List.length_append,
        ihf, ihb]
      omega

/-!
## Loop–recursion equivalence: the commit lemma

Processing one stack entry `(slot, l)` runs the loop for exactly
`stepsOf l` iterations, appends precisely the arena block `emitTree` of
the recursive tree of `l`, writes the block's root index into the slot,
and leaves the rest of the stack untouched.
-/

/-- Validity of a slot against an arena: a child slot points at an
existing node. -/
def slotOK : Slot → List ANode → Prop
  | .root, _ => True
  | .child p _, arena => p < arena.length

theorem setChild_length (arena : List ANode) (p : Nat) (isF : Bool)
    (v : Option Nat) : (setChild arena p isF v).length = arena.length := by
  simp [setChild]

theorem setChild_append_left (X Y : List ANode) (p : Nat) (isF : Bool)
    (v : Option Nat) (h : p < X.length) :
    setChild (X ++ Y) p isF v = setChild X p isF v ++ Y := by
  simp only [setChild, List.getD_eq_getElem?_getD, List.getElem?_append_left h,
    List.set_append_left _ _ h]

theorem setChild_snoc (X : List ANode) (nd : ANode) (isF : Bool)
    (v : Option Nat) :
    setChild (X ++ [nd]) X.length isF v =
      X ++ [if isF then { nd with front := v } else { nd with back := v }] := by
  simp only [setChild, List.getD_eq_getElem?_getD,
    List.getElem?_append_right (Nat.le_refl X.length), Nat.sub_self]
  rw [List.set_append_right _ _ (Nat.le_refl X.length), Nat.sub_self]
  rfl

theorem assignSlot_fst_length (arena : List ANode) (slot : Slot)
    (v : Option Nat) (root : Option Nat) :
    (assignSlot arena slot v root).1.length = arena.length := by
  cases slot <;> simp [assignSlot, setChild_length]

theorem assignSlot_append (X Y : List ANode) (slot : Slot) (v : Option Nat)
    (root : Option Nat) (h : slotOK slot X) :
    assignSlot (X ++ Y) slot v root =
      ((assignSlot X slot v root).1 ++ Y, (assignSlot X slot v root).2) := by
  cases slot with
  | root => rfl
  | child p isF =>
      simp only [assignSlot]
      rw [setChild_append_left X Y p isF v h]

/-- The number of loop iterations consumed by one stack entry: `1` for an
empty index list, otherwise one per node of the subtree built from it. -/
def stepsOf (faces : List Face) (planes : List RawPlane)
    (vertices : List Vec3) (l : List Nat) : Nat :=
  if l.isEmpty then 1 else bsize (buildRecIdx faces planes vertices l)

/-- The state reached after the loop has fully processed one stack entry:
the subtree of `l` committed into the arena and its root index written
into the slot (or the slot cleared, when `l` is empty). -/
def commitState (faces : List Face) (planes : List RawPlane)
    (vertices : List Vec3) (arena : List ANode) (slot : Slot)
    (root : Option Nat) (l : List Nat) (rest : List (Slot × List Nat)) :
    BState :=
  if l.isEmpty then
    let ar := clearSlot arena slot root
    ⟨ar.1, rest, ar.2⟩
  else
    let t := buildRecIdx faces planes vertices l
    let ar := assignSlot arena slot (some arena.length) root
    ⟨ar.1 ++ emitTree t arena.length, rest, ar.2⟩

theorem buildRecIdx_cons (faces : List Face) (planes : List RawPlane)
    (vertices : List Vec3) (fi : Nat) (fs : List Nat) :
    buildRecIdx faces planes vertices (fi :: fs) =
      .node (faces.getD fi [])
        ((fi :: (partitionIdx faces (planes.getD fi dfltPlane) vertices fs).1).map
          (fun j => faces.getD j []))
        (buildRecIdx faces planes vertices
          (partitionIdx faces (planes.getD fi dfltPlane) vertices fs).2.1)
        (buildRecIdx faces planes vertices
          (partitionIdx faces (planes.getD fi dfltPlane) vertices fs).2.2) := by
  rw [buildRecIdx]

theorem buildRecIdx_eq_nil_iff (faces : List Face) (planes : List RawPlane)
    (vertices : List Vec3) (l : List Nat) :
    buildRecIdx faces planes vertices l = .nil ↔ l = [] := by
  cases l with
  | nil => simp [buildRecIdx]
  | cons fi fs => simp [buildRecIdx_cons]

theorem buildLoopF_empty_stack (faces : List Face) (planes : List RawPlane)
    (vertices : List Vec3) (fuel : Nat) (arena : List ANode)
    (root : Option Nat) :
    buildLoopF faces planes vertices fuel ⟨arena, [], root⟩ =
      ⟨arena, [], root⟩ := by
  cases fuel <;> rfl

theorem commitState_child_nonempty (faces : List Face)
    (planes : List RawPlane) (vertices : List Vec3) (A : List ANode)
    (N : Nat) (d : Bool) (r : Option Nat) (l : List Nat)
    (rest : List (Slot × List Nat)) (hl : l ≠ []) :
    commitState faces planes vertices A (Slot.child N d) r l rest =
      ⟨setChild A N d (some A.length)
         ++ emitTree (buildRecIdx faces planes vertices l) A.length,
       rest, r⟩ := by
  cases l with
  | nil => exact absurd rfl hl
  | cons fi fs => simp [commitState, assignSlot]

theorem setChild_mid (B : List ANode) (nd : ANode) (suf : List ANode)
    (d : Bool) (v : Option Nat) :
    setChild (B ++ [nd] ++ suf) B.length d v =
      B ++ [if d then { nd with front := v } else { nd with back := v }]
        ++ suf := by
  rw [setChild_append_left (B ++ [nd]) suf B.length d v
    (by simp only [List.length_append, List.length_cons, List.length_nil]
        omega)]
  rw [setChild_snoc]

/-- Processing one stack entry `(slot, l)` consumes `stepsOf l` fuel and
turns the state into `commitState`: the recursive tree of `l` is appended
to the arena in emit order, its root index is written into the slot, and
the rest of the stack is untouched. -/
theorem buildLoopF_commit (faces : List Face) (planes : List RawPlane)
    (vertices : List Vec3) (n : Nat) :
    ∀ l : List Nat, l.length ≤ n →
    ∀ (slot : Slot) (rest : List (Slot × List Nat)) (arena : List ANode)
      (root : Option Nat) (fuel : Nat), slotOK slot arena →
      buildLoopF faces planes vertices
          (fuel + stepsOf faces planes vertices l)
          ⟨arena, (slot, l) :: rest, root⟩ =
        buildLoopF faces planes vertices fuel
          (commitState faces planes vertices arena slot root l rest) := by
  induction n with
  | zero =>
      intro l hl slot rest arena root fuel _
      obtain rfl : l = [] := List.length_eq_zero.mp (Nat.le_zero.mp hl)
      rfl
  | succ n ih =>
      intro l hl slot rest arena root fuel hok
      match l with
      | [] => rfl
      | fi :: fs =>
        have hfs : fs.length ≤ n := by
          simp only [List.length_cons] at hl
          omega
        have hfr_le :=
          partitionIdx_front_le faces (planes.getD fi dfltPlane) vertices fs
        have hbk_le :=
          partitionIdx_back_le faces (planes.getD fi dfltPlane) vertices fs
        have hnil : buildRecIdx faces planes vertices [] = .nil :=
          (buildRecIdx_eq_nil_iff _ _ _ _).mpr rfl
        set prt := partitionIdx faces (planes.getD fi dfltPlane) vertices fs
          with hprt
        set tf := buildRecIdx faces planes vertices prt.2.1 with htf
        set tb := buildRecIdx faces planes vertices prt.2.2 with htb
        have hst : stepsOf faces planes vertices (fi :: fs)
            = 1 + bsize tf + bsize tb := by
          simp only [stepsOf, List.isEmpty_cons, Bool.false_eq_true,
            if_false, buildRecIdx_cons, bsize, ← hprt, ← htf, ← htb]
        have hfuel : fuel + stepsOf faces planes vertices (fi :: fs)
            = (fuel + bsize tb + bsize tf) + 1 := by
          rw [hst]
          omega
        rw [hfuel]
        simp only [buildLoopF]
        have happ := assignSlot_append arena
          [buildNode faces planes vertices fi fs] slot (some arena.length)
          root hok
        have happ1 : (assignSlot
            (arena ++ [buildNode faces planes vertices fi fs]) slot
            (some arena.length) root).1 =
            (assignSlot arena slot (some arena.length) root).1
              ++ [buildNode faces planes vertices fi fs] := by
          rw [happ]
        have happ2 : (assignSlot
            (arena ++ [buildNode faces planes vertices fi fs]) slot
            (some arena.length) root).2 =
            (assignSlot arena slot (some arena.length) root).2 := by
          rw [happ]
        rw [happ1, happ2]
        set B := (assignSlot arena slot (some arena.length) root).1 with hB
        set r' := (assignSlot arena slot (some arena.length) root).2 with hr2
        have hBlen : B.length = arena.length := by
          rw [hB]
          exact assignSlot_fst_length arena slot (some arena.length) root
        -- the right-hand side in committed form
        have hrhs : commitState faces planes vertices arena slot root
            (fi :: fs) rest =
            ⟨B ++ emitTree (.node (faces.getD fi [])
                ((fi :: prt.1).map (fun j => faces.getD j [])) tf tb)
              arena.length, rest, r'⟩ := by
          simp only [commitState, List.isEmpty_cons, Bool.false_eq_true,
            if_false, buildRecIdx_cons, ← hprt, ← htf, ← htb, ← hB, ← hr2]
        rw [hrhs]
        simp only [childEntries, ← hprt]
        by_cases hfr : prt.2.1 = []
        · have htfn : tf = .nil := by rw [htf, hfr, hnil]
          by_cases hbk : prt.2.2 = []
          · -- both children absent: no entries pushed, node unchanged
            have htbn : tb = .nil := by rw [htb, hbk, hnil]
            simp only [hfr, hbk, List.isEmpty_nil, if_true, List.nil_append,
              htfn, htbn, emitTree, emitHead, bsize, List.append_nil]
            rfl
          · -- back child only
            have htbn : tb ≠ .nil := by
              rw [htb]
              simpa [buildRecIdx_eq_nil_iff] using hbk
            have hbkE : prt.2.2.isEmpty = false := by
              simpa [List.isEmpty_iff] using hbk
            simp only [hfr, List.isEmpty_nil, if_true, hbkE,
              Bool.false_eq_true, if_false, List.nil_append,
              List.singleton_append]
            have hco := ih prt.2.2 (le_trans hbk_le hfs) (Slot.child
              arena.length false) rest (B ++ [buildNode faces planes
              vertices fi fs]) r' fuel (by
                simp only [slotOK, List.length_append, List.length_cons,
                  List.length_nil, hBlen]
                omega)
            have hstb : stepsOf faces planes vertices prt.2.2 = bsize tb := by
              simp only [stepsOf, hbkE, Bool.false_eq_true, if_false, ← htb]
            rw [htfn]
            simp only [bsize, Nat.add_zero]
            rw [show fuel + bsize tb = fuel + stepsOf faces planes vertices
              prt.2.2 by rw [hstb]]
            rw [hco]
            rw [commitState_child_nonempty faces planes vertices _ _ _ _ _
              _ hbk]
            have hlen2 : (B ++ [buildNode faces planes vertices fi fs]).length
                = arena.length + 1 := by
              simp [hBlen]
            rw [show (B ++ [buildNode faces planes vertices fi fs]) =
              B ++ [buildNode faces planes vertices fi fs] ++ [] by simp]
            rw [← hBlen, setChild_mid]
            simp only [List.append_nil, hlen2, ← htb, hBlen]
            simp only [emitTree, emitHead, htfn, bsize, List.nil_append,
              Nat.add_zero]
            have : tb ≠ BSPTree.nil := htbn
            simp only [buildNode, ← hprt, if_neg this, Bool.false_eq_true]
            simp only [List.append_assoc, List.singleton_append]
            rfl
        · -- front child present
          have htfn : tf ≠ BSPTree.nil := by
            rw [htf]
            simpa [buildRecIdx_eq_nil_iff] using hfr
          have hfrE : prt.2.1.isEmpty = false := by
            simpa [List.isEmpty_iff] using hfr
          have hstf : stepsOf faces planes vertices prt.2.1 = bsize tf := by
            simp only [stepsOf, hfrE, Bool.false_eq_true, if_false, ← htf]
          by_cases hbk : prt.2.2 = []
          · -- front child only
            have htbn : tb = BSPTree.nil := by rw [htb, hbk, hnil]
            simp only [hfrE, Bool.false_eq_true, if_false, hbk,
              List.isEmpty_nil, if_true, List.append_nil,
              List.singleton_append]
            rw [htbn]
            simp only [bsize, Nat.add_zero]
            rw [show fuel + bsize tf = fuel + stepsOf faces planes vertices
              prt.2.1 by rw [hstf]]
            have hco := ih prt.2.1 (le_trans hfr_le hfs) (Slot.child
              arena.length true) rest (B ++ [buildNode faces planes
              vertices fi fs]) r' fuel (by
                simp only [slotOK, List.length_append, List.length_cons,
                  List.length_nil, hBlen]
                omega)
            rw [hco]
            rw [commitState_child_nonempty faces planes vertices _ _ _ _ _
              _ hfr]
            have hlen2 : (B ++ [buildNode faces planes vertices fi fs]).length
                = arena.length + 1 := by
              simp [hBlen]
            rw [show (B ++ [buildNode faces planes vertices fi fs]) =
              B ++ [buildNode faces planes vertices fi fs] ++ [] by simp]
            rw [← hBlen, setChild_mid]
            simp only [List.append_nil, hlen2, ← htf, hBlen]
            simp only [emitTree, emitHead, bsize, List.nil_append,
              List.append_nil]
            have h' : tf ≠ BSPTree.nil := htfn
            simp only [buildNode, ← hprt, if_neg h', if_pos rfl,
              Bool.false_eq_true]
            simp only [List.append_assoc, List.singleton_append]
            rfl
          · -- both children present
            have htbn : tb ≠ BSPTree.nil := by
              rw [htb]
              simpa [buildRecIdx_eq_nil_iff] using hbk
            have hbkE : prt.2.2.isEmpty = false := by
              simpa [List.isEmpty_iff] using hbk
            have hstb : stepsOf faces planes vertices prt.2.2 = bsize tb := by
              simp only [stepsOf, hbkE, Bool.false_eq_true, if_false, ← htb]
            simp only [hfrE, hbkE, Bool.false_eq_true, if_false,
              List.append_assoc, List.singleton_append, List.cons_append,
              List.nil_append]
            rw [show fuel + bsize tb + bsize tf = (fuel + bsize tb)
              + stepsOf faces planes vertices prt.2.1 by rw [hstf]]
            have hco1 := ih prt.2.1 (le_trans hfr_le hfs) (Slot.child
              arena.length true) ((Slot.child arena.length false, prt.2.2)
              :: rest) (B ++ [buildNode faces planes vertices fi fs]) r'
              (fuel + bsize tb) (by
                simp only [slotOK, List.length_append, List.length_cons,
                  List.length_nil, hBlen]
                omega)
            rw [hco1]
            rw [commitState_child_nonempty faces planes vertices _ _ _ _ _
              _ hfr]
            have hlen2 : (B ++ [buildNode faces planes vertices fi fs]).length
                = arena.length + 1 := by
              simp [hBlen]
            rw [show (B ++ [buildNode faces planes vertices fi fs]) =
              B ++ [buildNode faces planes vertices fi fs] ++ [] by simp]
            rw [← hBlen, setChild_mid]
            simp only [List.append_nil, hlen2, ← htf, hBlen]
            simp only [buildNode, ← hprt, if_pos rfl]
            set nd1 : ANode :=
              { plane_face := faces.getD fi []
              , faces_on_plane := (fi :: prt.1).map (fun j => faces.getD j [])
              , front := some (arena.length + 1)
              , back := none } with hnd1
            simp only [if_true, List.append_assoc]
            rw [show fuel + bsize tb = fuel + stepsOf faces planes vertices
              prt.2.2 by rw [hstb]]
            have hco2 := ih prt.2.2 (le_trans hbk_le hfs) (Slot.child
              arena.length false) rest
              (B ++ ([nd1] ++ emitTree tf (arena.length + 1))) r' fuel (by
                simp only [slotOK, List.length_append, List.length_cons,
                  List.length_nil, hBlen, emitTree_length]
                omega)
            rw [hco2]
            rw [commitState_child_nonempty faces planes vertices _ _ _ _ _
              _ hbk]
            have hlen3 : (B ++ ([nd1] ++ emitTree tf
                (arena.length + 1))).length = arena.length + 1 + bsize tf := by
              simp only [List.length_append, List.length_cons,
                List.length_nil, hBlen, emitTree_length]
              omega
            rw [← List.append_assoc, ← hBlen, setChild_mid]
            simp only [List.append_assoc, hlen3, ← htb, hBlen]
            simp only [emitTree, emitHead, bsize, List.nil_append]
            have h1 : tf ≠ BSPTree.nil := htfn
            have h2 : tb ≠ BSPTree.nil := htbn
            simp only [if_neg h1, if_neg h2, Bool.false_eq_true, hnd1]
            simp only [List.append_assoc, List.singleton_append]
            rfl

/-- Each node of the index-level tree consumes exactly one index of its
input list, so the tree has at most as many nodes as input indices. -/
theorem bsize_buildRecIdx_le (faces : List Face) (planes : List RawPlane)
    (vertices : List Vec3) (n : Nat) :
    ∀ l : List Nat, l.length ≤ n →
      bsize (buildRecIdx faces planes vertices l) ≤ l.length := by
  induction n with
  | zero =>
      intro l hl
      obtain rfl : l = [] := List.length_eq_zero.mp (Nat.le_zero.mp hl)
      simp [(buildRecIdx_eq_nil_iff faces planes vertices []).mpr rfl, bsize]
  | succ n ih =>
      intro l hl
      match l with
      | [] =>
        simp [(buildRecIdx_eq_nil_iff faces planes vertices []).mpr rfl,
          bsize]
      | fi :: fs =>
        have hfs : fs.length ≤ n := by
          simp only [List.length_cons] at hl
          omega
        have hlen := partitionIdx_lengths faces (planes.getD fi dfltPlane)
          vertices fs
        have h1 := ih (partitionIdx faces (planes.getD fi dfltPlane)
          vertices fs).2.1 (le_trans (partitionIdx_front_le _ _ _ _) hfs)
        have h2 := ih (partitionIdx faces (planes.getD fi dfltPlane)
          vertices fs).2.2 (le_trans (partitionIdx_back_le _ _ _ _) hfs)
        rw [buildRecIdx_cons]
        simp only [bsize, List.length_cons]
        omega

/-- Running the loop from the initial state commits the whole tree:
the final arena is the emit block of the recursive tree and the root gets
index `0`. -/
theorem buildLoopF_run (faces : List Face) (planes : List RawPlane)
    (vertices : List Vec3) (l : List Nat) (hl : l ≠ []) (fuel : Nat)
    (hfuel : stepsOf faces planes vertices l ≤ fuel) :
    buildLoopF faces planes vertices fuel ⟨[], [(Slot.root, l)], none⟩ =
      ⟨emitTree (buildRecIdx faces planes vertices l) 0, [], some 0⟩ := by
  have h := buildLoopF_commit faces planes vertices l.length l
    (Nat.le_refl _) Slot.root [] [] none
    (fuel - stepsOf faces planes vertices l) trivial
  rw [show fuel = (fuel - stepsOf faces planes vertices l)
    + stepsOf faces planes vertices l by omega]
  rw [h]
  have hne : l.isEmpty = false := by simpa [List.isEmpty_iff] using hl
  simp only [commitState, hne, Bool.false_eq_true, if_false, assignSlot,
    List.length_nil, List.nil_append]
  rw [buildLoopF_empty_stack]

theorem emitHead_front (pf : Face) (fop : List Face) (f b : BSPTree)
    (base : Nat) :
    (emitHead (.node pf fop f b) base).front =
      if f = BSPTree.nil then none else some (base + 1) := rfl

theorem emitHead_back (pf : Face) (fop : List Face) (f b : BSPTree)
    (base : Nat) :
    (emitHead (.node pf fop f b) base).back =
      if b = BSPTree.nil then none else some (base + 1 + bsize f) := rfl

/-- Reading the arena back from an emit block reconstructs the tree. -/
theorem extractT_emit (t : BSPTree) :
    ∀ (pre suf : List ANode) (base fuel : Nat), pre.length = base →
      bsize t ≤ fuel → t ≠ .nil →
      extractT (pre ++ emitTree t base ++ suf) fuel base = t := by
  induction t with
  | nil =>
      intro _ _ _ _ _ _ ht
      exact absurd rfl ht
  | node pf fop f b ihf ihb =>
      intro pre suf base fuel hpre hfuel _
      match fuel with
      | 0 => simp [bsize] at hfuel
      | fuel + 1 =>
        have hsf : bsize f ≤ fuel := by
          simp only [bsize] at hfuel
          omega
        have hsb : bsize b ≤ fuel := by
          simp only [bsize] at hfuel
          omega
        simp only [emitTree]
        have hget : (pre ++ (emitHead (BSPTree.node pf fop f b) base
            :: (emitTree f (base + 1) ++ emitTree b (base + 1 + bsize f)))
            ++ suf).get? base
            = some (emitHead (BSPTree.node pf fop f b) base) := by
          rw [List.get?_eq_getElem?]
          rw [List.getElem?_append_left (by
            simp only [List.length_append, List.length_cons]
            omega)]
          rw [List.getElem?_append_right (by omega)]
          simp [hpre]
        simp only [extractT, hget]
        have h1 : (match (emitHead (BSPTree.node pf fop f b) base).front with
          | none => BSPTree.nil
          | some j => extractT (pre ++ (emitHead (BSPTree.node pf fop f b)
              base :: (emitTree f (base + 1)
                ++ emitTree b (base + 1 + bsize f))) ++ suf) fuel j) = f := by
          rw [emitHead_front]
          by_cases hf : f = BSPTree.nil
          · simp [hf]
          · simp only [if_neg hf]
            have h := ihf (pre ++ [emitHead (BSPTree.node pf fop f b) base])
              (emitTree b (base + 1 + bsize f) ++ suf) (base + 1) fuel
              (by simp [hpre]) hsf hf
            simpa [List.append_assoc, List.singleton_append] using h
        have h2 : (match (emitHead (BSPTree.node pf fop f b) base).back with
          | none => BSPTree.nil
          | some j => extractT (pre ++ (emitHead (BSPTree.node pf fop f b)
              base :: (emitTree f (base + 1)
                ++ emitTree b (base + 1 + bsize f))) ++ suf) fuel j) = b := by
          rw [emitHead_back]
          by_cases hb : b = BSPTree.nil
          · simp [hb]
          · simp only [if_neg hb]
            have h := ihb (pre ++ [emitHead (BSPTree.node pf fop f b) base]
                ++ emitTree f (base + 1))
              suf (base + 1 + bsize f) fuel
              (by
                simp only [List.length_append, List.length_cons,
                  List.length_nil, emitTree_length, hpre]
                try omega)
              hsb hb
            simpa [List.append_assoc, List.singleton_append] using h
        rw [h1, h2]
        rfl

/-- When every face has at least three vertices the plane pre-computation
succeeds and yields exactly the per-face planes. -/
theorem mapPlanes_ok (vertices : List Vec3) (faces : List Face)
    (h : ∀ f ∈ faces, 3 ≤ f.length) :
    mapPlanes vertices faces =
      .ok (faces.map (fun f => face_planeCore f vertices)) := by
  induction faces with
  | nil => rfl
  | cons f rest ih =>
      have hf : 3 ≤ f.length := h f (List.mem_cons_self f rest)
      have hrest := ih (fun g hg => h g (List.mem_cons_of_mem f hg))
      simp only [mapPlanes, face_plane, if_neg (by omega : ¬f.length < 3),
        hrest, List.map_cons]

/-- `build_bsp` on a non-empty face list with successfully precomputed
planes produces exactly the index-level recursive tree of `range n`. -/
theorem build_bsp_eq_buildRecIdx (faces : List Face) (vertices : List Vec3)
    (planes : List RawPlane) (hne : faces ≠ [])
    (hpl : mapPlanes vertices faces = .ok planes) :
    build_bsp faces vertices =
      .ok (buildRecIdx faces planes vertices (List.range faces.length)) := by
  have hlen : 0 < faces.length := List.length_pos.mpr hne
  have hrne : List.range faces.length ≠ [] := by
    simp only [ne_eq, List.range_eq_nil]
    omega
  have hEm : faces.isEmpty = false := by
    simpa [List.isEmpty_iff] using hne
  simp only [build_bsp, hEm, Bool.false_eq_true, if_false, hpl]
  have hsteps : stepsOf faces planes vertices (List.range faces.length)
      ≤ 2 * faces.length + 1 := by
    have h1 := bsize_buildRecIdx_le faces planes vertices
      (List.range faces.length).length (List.range faces.length)
      (Nat.le_refl _)
    simp only [stepsOf, List.length_range] at h1 ⊢
    split
    · omega
    · omega
  rw [buildLoopF_run faces planes vertices (List.range faces.length) hrne
    (2 * faces.length + 1) hsteps]
  have hTne : buildRecIdx faces planes vertices (List.range faces.length)
      ≠ .nil := by
    simp [buildRecIdx_eq_nil_iff, hrne]
  simp only [extract]
  have := extractT_emit
    (buildRecIdx faces planes vertices (List.range faces.length)) [] []
    0 (emitTree (buildRecIdx faces planes vertices
      (List.range faces.length)) 0).length rfl
    (by rw [emitTree_length]) hTne
  simpa using this

/-!
## From the index-level tree to the specification's recursion
-/

theorem classifyFlagsEarly_eq_flags (pl : RawPlane) (vertices : List Vec3)
    (face : Face) :
    classifyFlagsEarly pl vertices face false false =
      classifyFlags face pl vertices := by
  rw [classifyFlagsEarly_eq]
  rfl

theorem buildSpecRec_cons (vertices : List Vec3) (splitter : Face)
    (rest : List Face) :
    buildSpecRec vertices (splitter :: rest) =
      .node splitter
        (splitter :: (partitionFacesSpec (face_planeCore splitter vertices)
          vertices rest).1)
        (buildSpecRec vertices (partitionFacesSpec
          (face_planeCore splitter vertices) vertices rest).2.1)
        (buildSpecRec vertices (partitionFacesSpec
          (face_planeCore splitter vertices) vertices rest).2.2) := by
  rw [buildSpecRec]

theorem partitionIdx_mem (faces : List Face) (pl : RawPlane)
    (vertices : List Vec3) (fs : List Nat) :
    (∀ i ∈ (partitionIdx faces pl vertices fs).1, i ∈ fs)
      ∧ (∀ i ∈ (partitionIdx faces pl vertices fs).2.1, i ∈ fs)
      ∧ (∀ i ∈ (partitionIdx faces pl vertices fs).2.2, i ∈ fs) := by
  induction fs with
  | nil => simp [partitionIdx]
  | cons fi rest ih =>
      obtain ⟨ih1, ih2, ih3⟩ := ih
      simp only [partitionIdx]
      split
      · refine ⟨fun i hi => List.mem_cons_of_mem fi (ih1 i hi), fun i hi => ?_,
          fun i hi => List.mem_cons_of_mem fi (ih3 i hi)⟩
        rcases List.mem_cons.mp hi with h | h
        · exact h ▸ List.mem_cons_self fi rest
        · exact List.mem_cons_of_mem fi (ih2 i h)
      · split
        · refine ⟨fun i hi => List.mem_cons_of_mem fi (ih1 i hi),
            fun i hi => ?_,
            fun i hi => List.mem_cons_of_mem fi (ih3 i hi)⟩
          rcases List.mem_cons.mp hi with h | h
          · exact h ▸ List.mem_cons_self fi rest
          · exact List.mem_cons_of_mem fi (ih2 i h)
        · split
          · refine ⟨fun i hi => List.mem_cons_of_mem fi (ih1 i hi),
              fun i hi => List.mem_cons_of_mem fi (ih2 i hi),
              fun i hi => ?_⟩
            rcases List.mem_cons.mp hi with h | h
            · exact h ▸ List.mem_cons_self fi rest
            · exact List.mem_cons_of_mem fi (ih3 i h)
          · refine ⟨fun i hi => ?_,
              fun i hi => List.mem_cons_of_mem fi (ih2 i hi),
              fun i hi => List.mem_cons_of_mem fi (ih3 i hi)⟩
            rcases List.mem_cons.mp hi with h | h
            · exact h ▸ List.mem_cons_self fi rest
            · exact List.mem_cons_of_mem fi (ih1 i h)

/-- The per-node partition of the work-list builder matches the
specification's classify-and-dispatch, transported along `faces[i]`
lookups: classifying `faces[i]` gives the same three groups, with
spanning faces folded into the front group on both sides. -/
theorem partitionIdx_eq_spec (faces : List Face) (pl : RawPlane)
    (vertices : List Vec3) (fs : List Nat) :
    partitionFacesSpec pl vertices (fs.map (fun i => faces.getD i [])) =
      ((partitionIdx faces pl vertices fs).1.map (fun i => faces.getD i []),
       (partitionIdx faces pl vertices fs).2.1.map (fun i => faces.getD i []),
       (partitionIdx faces pl vertices fs).2.2.map
         (fun i => faces.getD i [])) := by
  induction fs with
  | nil => rfl
  | cons fi rest ih =>
      simp only [List.map_cons, partitionFacesSpec, partitionIdx, ih,
        classifyFlagsEarly_eq_flags, classify_face]
      rcases hfb : classifyFlags (faces.getD fi []) pl vertices with ⟨bf, bb⟩
      cases bf <;> cases bb <;> simp [List.map_cons]

theorem getD_map_planes (faces : List Face) (vertices : List Vec3)
    (i : Nat) (h : i < faces.length) :
    (faces.map (fun f => face_planeCore f vertices)).getD i dfltPlane
      = face_planeCore (faces.getD i []) vertices := by
  rw [List.getD_eq_getElem?_getD, List.getD_eq_getElem?_getD,
    List.getElem?_map, List.getElem?_eq_getElem h]
  simp

/-- The index-level recursive construction is the specification's
recursion, transported along the canonical `faces[i]` lookups. -/
theorem buildRecIdx_eq_spec (faces : List Face) (vertices : List Vec3)
    (n : Nat) :
    ∀ l : List Nat, l.length ≤ n → (∀ i ∈ l, i < faces.length) →
      buildRecIdx faces (faces.map (fun f => face_planeCore f vertices))
          vertices l
        = buildSpecRec vertices (l.map (fun i => faces.getD i [])) := by
  induction n with
  | zero =>
      intro l hl _
      obtain rfl : l = [] := List.length_eq_zero.mp (Nat.le_zero.mp hl)
      rw [(buildRecIdx_eq_nil_iff _ _ _ _).mpr rfl]
      simp [buildSpecRec]
  | succ n ih =>
      intro l hl hmem
      match l with
      | [] =>
        rw [(buildRecIdx_eq_nil_iff _ _ _ _).mpr rfl]
        simp [buildSpecRec]
      | fi :: fs =>
        have hfs : fs.length ≤ n := by
          simp only [List.length_cons] at hl
          omega
        have hfi : fi < faces.length := hmem fi (List.mem_cons_self fi fs)
        rw [buildRecIdx_cons]
        rw [show (fi :: fs).map (fun i => faces.getD i [])
          = faces.getD fi [] :: fs.map (fun i => faces.getD i []) from rfl]
        rw [buildSpecRec_cons]
        rw [getD_map_planes faces vertices fi hfi]
        rw [partitionIdx_eq_spec]
        obtain ⟨hm1, hm2, hm3⟩ := partitionIdx_mem faces
          (face_planeCore (faces.getD fi []) vertices) vertices fs
        have hfr := ih (partitionIdx faces
          (face_planeCore (faces.getD fi []) vertices) vertices fs).2.1
          (le_trans (partitionIdx_front_le _ _ _ _) hfs)
          (fun i hi => hmem i (List.mem_cons_of_mem fi (hm2 i hi)))
        have hbk := ih (partitionIdx faces
          (face_planeCore (faces.getD fi []) vertices) vertices fs).2.2
          (le_trans (partitionIdx_back_le _ _ _ _) hfs)
          (fun i hi => hmem i (List.mem_cons_of_mem fi (hm3 i hi)))
        rw [hfr, hbk]
        simp only [List.map_cons]

theorem range_map_getD (faces : List Face) :
    (List.range faces.length).map (fun i => faces.getD i []) = faces := by
  apply List.ext_getElem
  · simp
  · intro i h1 h2
    simp only [List.getElem_map, List.getElem_range,
      List.getD_eq_getElem?_getD, List.getElem?_eq_getElem h2,
      Option.getD_some]

/-- C2 central equivalence: on well-formed faces the iterative work-list
builder returns exactly the tree of the specification's recursion. -/
theorem build_bsp_eq_spec (faces : List Face) (vertices : List Vec3)
    (h3 : ∀ f ∈ faces, 3 ≤ f.length) :
    build_bsp faces vertices = .ok (buildSpecRec vertices faces) := by
  by_cases hne : faces = []
  · subst hne
    simp [build_bsp, buildSpecRec, List.isEmpty_nil]
  · rw [build_bsp_eq_buildRecIdx faces vertices
      (faces.map (fun f => face_planeCore f vertices)) hne
      (mapPlanes_ok vertices faces h3)]
    rw [buildRecIdx_eq_spec faces vertices (List.range faces.length).length
      (List.range faces.length) (Nat.le_refl _)
      (by
        intro i hi
        simpa [List.mem_range] using hi)]
    rw [range_map_getD]

/-!
## The flattener (`FlatBSP`, `BSP/obj_to_bsp.py` 379–467)

Python's flattener addresses nodes by object identity (`id(node)`).  In a
freshly built tree every node object is reachable by exactly one path from
the root, so the embedding uses root-to-node paths (`List Bool`,
`true` = front) as identities.

* the indexing pass is a breadth-first traversal with a FIFO queue
  (`queue.pop(0)`, children appended front first), assigning dense indices
  in discovery order — `bfsOrder`;
* the fill pass is a depth-first traversal with a LIFO stack (back pushed
  before front, so front is processed first), appending each node's
  coplanar faces to one shared table — `dfsOrder`; a node's
  `faces_on_plane_idx_start` is the table length when it is filled, i.e.
  the total coplanar count of the nodes filled before it.
-/

/-- Follow a path from the root (`true` = front child). -/
def nodeAt : BSPTree → List Bool → BSPTree
  | t, [] => t
  | .nil, _ :: _ => .nil
  | .node _ _ f b, d :: p => nodeAt (if d then f else b) p

/-- The coplanar faces of the node at a path (empty off the tree). -/
def fopAt (t : BSPTree) (p : List Bool) : List Face :=
  match nodeAt t p with
  | .nil => []
  | .node _ fop _ _ => fop

/-- The splitting face of the node at a path. -/
def pfAt (t : BSPTree) (p : List Bool) : Face :=
  match nodeAt t p with
  | .nil => []
  | .node pf _ _ _ => pf

/-- The `d`-child subtree of the node at a path. -/
def childAt (t : BSPTree) (p : List Bool) (d : Bool) : BSPTree :=
  match nodeAt t p with
  | .nil => .nil
  | .node _ _ f b => if d then f else b

/-- Fuel measure of a traversal work list. -/
def qMeasure (q : List (List Bool × BSPTree)) : Nat :=
  (q.map (fun e => 1 + 2 * bsize e.2)).sum

/-- The indexing pass (source lines 393–410): FIFO queue, front child
enqueued before back child; assigns indices in pop order. -/
def bfsAuxF : Nat → List (List Bool × BSPTree) → List (List Bool)
  | 0, _ => []
  | _ + 1, [] => []
  | fuel + 1, (_, .nil) :: rest => bfsAuxF fuel rest
  | fuel + 1, (p, .node _ _ f b) :: rest =>
    p :: bfsAuxF fuel (rest
      ++ (if f = .nil then [] else [(p ++ [true], f)])
      ++ (if b = .nil then [] else [(p ++ [false], b)]))

/-- The fill pass order (source lines 413–452): LIFO stack, back child
pushed before front child, so the front subtree is filled first. -/
def dfsAuxF : Nat → List (List Bool × BSPTree) → List (List Bool)
  | 0, _ => []
  | _ + 1, [] => []
  | fuel + 1, (_, .nil) :: rest => dfsAuxF fuel rest
  | fuel + 1, (p, .node _ _ f b) :: rest =>
    p :: dfsAuxF fuel ((if f = .nil then [] else [(p ++ [true], f)])
      ++ (if b = .nil then [] else [(p ++ [false], b)])
      ++ rest)

/-- Node order of the indexing pass (`2·bsize+1` fuel always suffices). -/
def bfsOrder (t : BSPTree) : List (List Bool) :=
  bfsAuxF (2 * bsize t + 1) [([], t)]

/-- Node order of the fill pass. -/
def dfsOrder (t : BSPTree) : List (List Bool) :=
  dfsAuxF (2 * bsize t + 1) [([], t)]

/-- Structural enumeration of the node paths of a tree (preorder,
front subtree first), used to reason about both traversals. -/
def pathsOf (p : List Bool) : BSPTree → List (List Bool)
  | .nil => []
  | .node _ _ f b =>
    p :: (pathsOf (p ++ [true]) f ++ pathsOf (p ++ [false]) b)

/-- All paths of a work list. -/
def pathsAll (q : List (List Bool × BSPTree)) : List (List Bool) :=
  (q.map (fun e => pathsOf e.1 e.2)).flatten

/-- `FlatBSP.find_face_idx` (source lines 456–461): first index whose face
compares equal, `0xFFFF` when the face is not found. -/
def find_face_idx_from (face : Face) : List Face → Nat → Nat
  | [], _ => 0xFFFF
  | f :: rest, i => if f = face then i else find_face_idx_from face rest (i + 1)

/-- Value-equality lookup of a face in the canonical face array. -/
def find_face_idx (faces : List Face) (face : Face) : Nat :=
  find_face_idx_from face faces 0

/-- A flattened node record (source: the dict stored in
`FlatBSP.nodes`). -/
structure FlatNode where
  plane_face_idx : Nat
  faces_on_plane_count : Nat
  faces_on_plane_idx_start : Nat
  front_node_idx : Int
  back_node_idx : Int
deriving DecidableEq

/-- Coplanar-run length of the node at a path. -/
def countOf (t : BSPTree) (p : List Bool) : Nat :=
  (fopAt t p).length

/-- Coplanar-run start of the node at a path: the shared table's length at
the moment the fill pass reaches the node, i.e. the total coplanar count of
the nodes filled earlier in `dfsOrder`. -/
def startOf (t : BSPTree) (p : List Bool) : Nat :=
  (((dfsOrder t).takeWhile (fun q => q ≠ p)).map (countOf t)).sum

/-- Child index as stored in the node record: `-1` for an absent child,
otherwise the child's position in the indexing pass. -/
def childIdx (t : BSPTree) (p : List Bool) (d : Bool) : Int :=
  if childAt t p d = .nil then -1
  else ((bfsOrder t).indexOf (p ++ [d]) : Int)

/-- The flattened record of one node (source lines 440–446). -/
def mkFlatNode (faces : List Face) (t : BSPTree) (p : List Bool) : FlatNode :=
  { plane_face_idx := find_face_idx faces (pfAt t p)
  , faces_on_plane_count := countOf t p
  , faces_on_plane_idx_start := startOf t p
  , front_node_idx := childIdx t p true
  , back_node_idx := childIdx t p false }

/-- `FlatBSP.nodes` after `run`: one record per node, in indexing-pass
order. -/
def flatNodesOf (faces : List Face) (t : BSPTree) : List FlatNode :=
  (bfsOrder t).map (mkFlatNode faces t)

/-- `FlatBSP.faces_on_plane` after `run`: the shared coplanar table —
each node's coplanar faces (by content), concatenated in fill order. -/
def tableFacesOf (t : BSPTree) : List Face :=
  ((dfsOrder t).map (fopAt t)).flatten

/-!
## Traversal lemmas
-/

theorem pathsOf_length (p : List Bool) (t : BSPTree) :
    (pathsOf p t).length = bsize t := by
  induction t generalizing p with
  | nil => rfl
  | node pf fop f b ihf ihb =>
      simp only [pathsOf, bsize, List.length_cons, List.length_append,
        ihf, ihb]
      omega

theorem pathsAll_append (q1 q2 : List (List Bool × BSPTree)) :
    pathsAll (q1 ++ q2) = pathsAll q1 ++ pathsAll q2 := by
  simp [pathsAll]

theorem qMeasure_nil : qMeasure [] = 0 := rfl

theorem qMeasure_cons (e : List Bool × BSPTree)
    (q : List (List Bool × BSPTree)) :
    qMeasure (e :: q) = 1 + 2 * bsize e.2 + qMeasure q := by
  simp only [qMeasure, List.map_cons, List.sum_cons]

theorem qMeasure_append (q1 q2 : List (List Bool × BSPTree)) :
    qMeasure (q1 ++ q2) = qMeasure q1 + qMeasure q2 := by
  simp [qMeasure, List.sum_append]

/-- The fill pass visits exactly the structural preorder of the tree. -/
theorem dfsAuxF_eq (fuel : Nat) :
    ∀ q : List (List Bool × BSPTree), qMeasure q ≤ fuel →
      dfsAuxF fuel q = pathsAll q := by
  induction fuel with
  | zero =>
      intro q hq
      match q with
      | [] => rfl
      | e :: rest =>
        exfalso
        rw [qMeasure_cons] at hq
        omega
  | succ fuel ih =>
      intro q hq
      match q with
      | [] => rfl
      | (p, .nil) :: rest =>
        have hm : qMeasure rest ≤ fuel := by
          rw [qMeasure_cons] at hq
          omega
        simp only [dfsAuxF, ih rest hm, pathsAll, List.map_cons,
          List.flatten_cons, pathsOf, List.nil_append]
      | (p, .node pf fop f b) :: rest =>
        have hq' : 3 + 2 * bsize f + 2 * bsize b + qMeasure rest
            ≤ fuel + 1 := by
          rw [qMeasure_cons] at hq
          simp only [bsize] at hq
          omega
        have hm : qMeasure ((if f = BSPTree.nil then []
            else [(p ++ [true], f)])
            ++ (if b = BSPTree.nil then [] else [(p ++ [false], b)])
            ++ rest) ≤ fuel := by
          by_cases hf : f = BSPTree.nil <;> by_cases hb : b = BSPTree.nil <;>
            simp only [hf, hb, eq_self_iff_true, if_true, if_false,
              qMeasure_append, qMeasure_cons, qMeasure_nil, bsize,
              List.nil_append] <;>
            omega
        simp only [dfsAuxF, ih _ hm, pathsAll_append, pathsAll, pathsOf,
          List.map_cons, List.flatten_cons, List.map_nil, List.flatten_nil]
        by_cases hf : f = BSPTree.nil <;> by_cases hb : b = BSPTree.nil <;>
          simp [hf, hb, pathsOf, pathsAll, List.append_assoc]

/-- The indexing pass visits exactly the tree's paths, in breadth-first
order — a permutation of the structural preorder. -/
theorem bfsAuxF_perm (fuel : Nat) :
    ∀ q : List (List Bool × BSPTree), qMeasure q ≤ fuel →
      (bfsAuxF fuel q).Perm (pathsAll q) := by
  induction fuel with
  | zero =>
      intro q hq
      match q with
      | [] => exact List.Perm.refl _
      | e :: rest =>
        exfalso
        rw [qMeasure_cons] at hq
        omega
  | succ fuel ih =>
      intro q hq
      match q with
      | [] => exact List.Perm.refl _
      | (p, .nil) :: rest =>
        have hm : qMeasure rest ≤ fuel := by
          rw [qMeasure_cons] at hq
          omega
        simp only [bfsAuxF, pathsAll, List.map_cons, List.flatten_cons,
          pathsOf, List.nil_append]
        exact ih rest hm
      | (p, .node pf fop f b) :: rest =>
        have hq' : 3 + 2 * bsize f + 2 * bsize b + qMeasure rest
            ≤ fuel + 1 := by
          rw [qMeasure_cons] at hq
          simp only [bsize] at hq
          omega
        have hm : qMeasure (rest
            ++ (if f = BSPTree.nil then [] else [(p ++ [true], f)])
            ++ (if b = BSPTree.nil then [] else [(p ++ [false], b)]))
            ≤ fuel := by
          by_cases hf : f = BSPTree.nil <;> by_cases hb : b = BSPTree.nil <;>
            simp only [hf, hb, eq_self_iff_true, if_true, if_false,
              qMeasure_append, qMeasure_cons, qMeasure_nil, bsize,
              List.nil_append, List.append_nil] <;>
            omega
        simp only [bfsAuxF, pathsAll, List.map_cons, List.flatten_cons,
          pathsOf, List.cons_append]
        refine List.Perm.cons p ?_
        have hrec := ih _ hm
        refine hrec.trans ?_
        rw [pathsAll_append, pathsAll_append]
        have hfr : pathsAll (if f = BSPTree.nil then []
            else [(p ++ [true], f)]) = pathsOf (p ++ [true]) f := by
          by_cases hf : f = BSPTree.nil <;> simp [hf, pathsAll, pathsOf]
        have hbk : pathsAll (if b = BSPTree.nil then []
            else [(p ++ [false], b)]) = pathsOf (p ++ [false]) b := by
          by_cases hb : b = BSPTree.nil <;> simp [hb, pathsAll, pathsOf]
        rw [hfr, hbk, List.append_assoc]
        exact List.perm_append_comm

theorem qMeasure_single (p : List Bool) (t : BSPTree) :
    qMeasure [(p, t)] = 1 + 2 * bsize t := by
  simp [qMeasure]

theorem dfsOrder_eq (t : BSPTree) : dfsOrder t = pathsOf [] t := by
  have h := dfsAuxF_eq (2 * bsize t + 1) [([], t)] (by
    rw [qMeasure_single]
    omega)
  simpa [dfsOrder, pathsAll] using h

theorem bfsOrder_perm (t : BSPTree) : (bfsOrder t).Perm (pathsOf [] t) := by
  have h := bfsAuxF_perm (2 * bsize t + 1) [([], t)] (by
    rw [qMeasure_single]
    omega)
  simpa [bfsOrder, pathsAll] using h

theorem bfsOrder_length (t : BSPTree) : (bfsOrder t).length = bsize t := by
  rw [(bfsOrder_perm t).length_eq, pathsOf_length]

theorem dfsOrder_length (t : BSPTree) : (dfsOrder t).length = bsize t := by
  rw [dfsOrder_eq, pathsOf_length]

theorem pathsOf_pre (p : List Bool) (t : BSPTree) :
    ∀ q ∈ pathsOf p t, ∃ r, q = p ++ r := by
  induction t generalizing p with
  | nil => intro q hq; simp [pathsOf] at hq
  | node pf fop f b ihf ihb =>
      intro q hq
      simp only [pathsOf, List.mem_cons, List.mem_append] at hq
      rcases hq with rfl | hq | hq
      · exact ⟨[], by simp⟩
      · obtain ⟨r, hr⟩ := ihf (p ++ [true]) q hq
        exact ⟨[true] ++ r, by simp [hr]⟩
      · obtain ⟨r, hr⟩ := ihb (p ++ [false]) q hq
        exact ⟨[false] ++ r, by simp [hr]⟩

theorem pathsOf_nodup (p : List Bool) (t : BSPTree) :
    (pathsOf p t).Nodup := by
  induction t generalizing p with
  | nil => simp [pathsOf]
  | node pf fop f b ihf ihb =>
      simp only [pathsOf, List.nodup_cons, List.mem_append]
      refine ⟨?_, List.Nodup.append (ihf _) (ihb _) ?_⟩
      · rintro (h | h)
        · obtain ⟨r, hr⟩ := pathsOf_pre (p ++ [true]) f p h
          have := congrArg List.length hr
          simp at this
        · obtain ⟨r, hr⟩ := pathsOf_pre (p ++ [false]) b p h
          have := congrArg List.length hr
          simp at this
      · intro q hqf hqb
        obtain ⟨r1, hr1⟩ := pathsOf_pre (p ++ [true]) f q hqf
        obtain ⟨r2, hr2⟩ := pathsOf_pre (p ++ [false]) b q hqb
        rw [hr1] at hr2
        have h1 : (p ++ [true] ++ r1)[p.length]? = some true := by
          rw [List.getElem?_append_left
            (by simp : p.length < (p ++ [true]).length)]
          rw [List.getElem?_append_right (Nat.le_refl _)]
          simp
        have h2 : (p ++ [false] ++ r2)[p.length]? = some false := by
          rw [List.getElem?_append_left
            (by simp : p.length < (p ++ [false]).length)]
          rw [List.getElem?_append_right (Nat.le_refl _)]
          simp
        rw [hr2, h2] at h1
        simp at h1

theorem dfsOrder_nodup (t : BSPTree) : (dfsOrder t).Nodup := by
  rw [dfsOrder_eq]
  exact pathsOf_nodup [] t

theorem nodeAt_append (t : BSPTree) (p q : List Bool) :
    nodeAt t (p ++ q) = nodeAt (nodeAt t p) q := by
  induction p generalizing t with
  | nil => cases t <;> simp [nodeAt]
  | cons d p ih =>
      match t with
      | .nil =>
        simp only [nodeAt]
        match q with
        | [] => rfl
        | _ :: _ => rfl
      | .node pf fop f b =>
        simp only [List.cons_append, nodeAt]
        exact ih _

/-- All coplanar faces of a tree, node by node (front subtree before back
subtree — the fill order). -/
def allOn : BSPTree → List Face
  | .nil => []
  | .node _ fop f b => fop ++ allOn f ++ allOn b

/-- The shared coplanar table collects exactly the per-node coplanar lists
of the (sub)tree below each path. -/
theorem flatten_fop_paths (t0 : BSPTree) :
    ∀ (t : BSPTree) (p : List Bool), nodeAt t0 p = t →
      ((pathsOf p t).map (fopAt t0)).flatten = allOn t := by
  intro t
  induction t with
  | nil => intro p _; rfl
  | node pf fop f b ihf ihb =>
      intro p hp
      have hf : nodeAt t0 (p ++ [true]) = f := by
        rw [nodeAt_append, hp]
        cases f <;> simp [nodeAt]
      have hb : nodeAt t0 (p ++ [false]) = b := by
        rw [nodeAt_append, hp]
        cases b <;> simp [nodeAt]
      simp only [pathsOf, List.map_cons, List.map_append,
        List.flatten_cons, List.flatten_append, allOn, ihf _ hf, ihb _ hb,
        List.append_assoc]
      simp only [fopAt, hp]

theorem nodeAt_nil (t : BSPTree) : nodeAt t [] = t := by
  cases t <;> simp [nodeAt]

theorem tableFacesOf_eq_allOn (t : BSPTree) : tableFacesOf t = allOn t := by
  rw [tableFacesOf, dfsOrder_eq]
  exact flatten_fop_paths t t [] (nodeAt_nil t)

/-- The three groups of the specification's partition are a permutation of
its input. -/
theorem partitionFacesSpec_perm (pl : RawPlane) (vertices : List Vec3)
    (l : List Face) :
    ((partitionFacesSpec pl vertices l).1
      ++ (partitionFacesSpec pl vertices l).2.1
      ++ (partitionFacesSpec pl vertices l).2.2).Perm l := by
  induction l with
  | nil => simp [partitionFacesSpec]
  | cons f rest ih =>
      simp only [partitionFacesSpec]
      split
      · simpa using List.Perm.cons f ih
      · refine List.Perm.trans ?_ (List.Perm.cons f ih)
        simp only [List.append_assoc]
        exact List.perm_middle
      · refine List.Perm.trans ?_ (List.Perm.cons f ih)
        simp only [List.append_assoc]
        refine List.Perm.trans (List.Perm.append_left _ List.perm_middle) ?_
        exact List.perm_middle
      · refine List.Perm.trans ?_ (List.Perm.cons f ih)
        simp only [List.append_assoc]
        exact List.perm_middle

/-- Partition completeness at tree level: the coplanar lists of all nodes
of the specification tree are a permutation of the input faces. -/
theorem allOn_buildSpecRec_perm (vertices : List Vec3) (n : Nat) :
    ∀ l : List Face, l.length ≤ n →
      (allOn (buildSpecRec vertices l)).Perm l := by
  induction n with
  | zero =>
      intro l hl
      obtain rfl : l = [] := List.length_eq_zero.mp (Nat.le_zero.mp hl)
      simp [buildSpecRec, allOn]
  | succ n ih =>
      intro l hl
      match l with
      | [] => simp [buildSpecRec, allOn]
      | splitter :: rest =>
        have hrest : rest.length ≤ n := by
          simp only [List.length_cons] at hl
          omega
        rw [buildSpecRec_cons]
        simp only [allOn]
        have hfr := ih (partitionFacesSpec
          (face_planeCore splitter vertices) vertices rest).2.1
          (le_trans (partitionFacesSpec_front_le _ _ _) hrest)
        have hbk := ih (partitionFacesSpec
          (face_planeCore splitter vertices) vertices rest).2.2
          (le_trans (partitionFacesSpec_back_le _ _ _) hrest)
        rw [show (splitter :: (partitionFacesSpec (face_planeCore splitter
              vertices) vertices rest).1)
              ++ allOn (buildSpecRec vertices (partitionFacesSpec
                (face_planeCore splitter vertices) vertices rest).2.1)
              ++ allOn (buildSpecRec vertices (partitionFacesSpec
                (face_planeCore splitter vertices) vertices rest).2.2)
            = splitter :: ((partitionFacesSpec (face_planeCore splitter
                vertices) vertices rest).1
              ++ (allOn (buildSpecRec vertices (partitionFacesSpec
                (face_planeCore splitter vertices) vertices rest).2.1)
              ++ allOn (buildSpecRec vertices (partitionFacesSpec
                (face_planeCore splitter vertices) vertices rest).2.2)))
          by simp [List.append_assoc]]
        refine List.Perm.cons splitter ?_
        refine List.Perm.trans ?_ (partitionFacesSpec_perm
          (face_planeCore splitter vertices) vertices rest)
        rw [List.append_assoc]
        exact List.Perm.append (List.Perm.refl _)
          (List.Perm.append hfr hbk)

/-- The index table as written into the binary (source lines 495–498:
`find_face_idx` applied to every entry of the shared coplanar table). -/
def tableIdxOf (faces : List Face) (t : BSPTree) : List Nat :=
  (tableFacesOf t).map (find_face_idx faces)

theorem find_face_idx_from_getD (faces : List Face) (hnd : faces.Nodup) :
    ∀ (k : Nat), k < faces.length → ∀ i : Nat,
      find_face_idx_from (faces.getD k []) faces i = i + k := by
  induction faces with
  | nil => intro k hk; simp at hk
  | cons f rest ih =>
      intro k hk i
      match k with
      | 0 => simp [find_face_idx_from]
      | k + 1 =>
        have hk' : k < rest.length := by
          simp only [List.length_cons] at hk
          omega
        have hmem : rest.getD k [] ∈ rest := by
          rw [List.getD_eq_getElem?_getD, List.getElem?_eq_getElem hk']
          exact List.getElem_mem hk'
        have hne : ¬f = rest.getD k [] :=
          fun h => (List.nodup_cons.mp hnd).1 (h ▸ hmem)
        simp only [find_face_idx_from, List.getD_cons_succ, if_neg hne]
        rw [ih (List.nodup_cons.mp hnd).2 k hk' (i + 1)]
        omega

theorem find_face_idx_getD (faces : List Face) (hnd : faces.Nodup)
    (k : Nat) (hk : k < faces.length) :
    find_face_idx faces (faces.getD k []) = k := by
  rw [find_face_idx, find_face_idx_from_getD faces hnd k hk 0]
  omega

theorem map_find_face_idx (faces : List Face) (hnd : faces.Nodup) :
    faces.map (find_face_idx faces) = List.range faces.length := by
  apply List.ext_getElem
  · simp
  · intro k h1 h2
    have hk : k < faces.length := by simpa using h1
    simp only [List.getElem_map, List.getElem_range]
    have hgd : faces[k] = faces.getD k [] := by
      rw [List.getD_eq_getElem?_getD, List.getElem?_eq_getElem hk]
      rfl
    rw [hgd, find_face_idx_getD faces hnd k hk]

/-- Each node's `(start, count)` run slices its own coplanar list back out
of the shared table. -/
theorem run_slice (t : BSPTree) (p : List Bool) (hp : p ∈ dfsOrder t) :
    ((tableFacesOf t).drop (startOf t p)).take (countOf t p) = fopAt t p := by
  obtain ⟨d1, d2, hsplit⟩ := List.append_of_mem hp
  have hnd : (dfsOrder t).Nodup := dfsOrder_nodup t
  rw [hsplit] at hnd
  have hd1 : ∀ q ∈ d1, (fun q => decide (q ≠ p)) q = true := by
    intro q hq
    have hdis := (List.nodup_append.mp hnd).2.2
    simp only [decide_eq_true_eq, ne_eq]
    intro h
    exact hdis hq (by rw [h]; exact List.mem_cons_self p d2)
  have htw : ((dfsOrder t).takeWhile (fun q => q ≠ p)) = d1 := by
    rw [hsplit, List.takeWhile_append_of_pos hd1]
    simp [List.takeWhile_cons]
  rw [startOf, htw, tableFacesOf, hsplit]
  simp only [List.map_append, List.map_cons, List.flatten_append,
    List.flatten_cons]
  have hlen : ((d1.map (fopAt t)).flatten).length
      = ((d1.map (countOf t)).sum) := by
    rw [List.length_flatten, List.map_map]
    rfl
  rw [← hlen, List.drop_left, countOf, List.take_left]

theorem countP_mem_zero_of_sum_zero (i : Nat) :
    ∀ L : List (List Nat), (L.map (fun r => r.count i)).sum = 0 →
      L.countP (fun r => decide (i ∈ r)) = 0 := by
  intro L
  induction L with
  | nil => intro _; rfl
  | cons r rest ih =>
      intro h
      simp only [List.map_cons, List.sum_cons] at h
      have hr : r.count i = 0 := by omega
      have hrest := ih (by omega)
      rw [List.countP_cons]
      simp only [hrest]
      have : ¬i ∈ r := by
        rw [← List.count_pos_iff]
        omega
      simp [this]

theorem countP_mem_one_of_sum_one (i : Nat) :
    ∀ L : List (List Nat), (L.map (fun r => r.count i)).sum = 1 →
      L.countP (fun r => decide (i ∈ r)) = 1 := by
  intro L
  induction L with
  | nil => intro h; simp at h
  | cons r rest ih =>
      intro h
      simp only [List.map_cons, List.sum_cons] at h
      rw [List.countP_cons]
      by_cases hr : i ∈ r
      · have hc : 1 ≤ r.count i := List.count_pos_iff.mpr hr
        have hz := countP_mem_zero_of_sum_zero i rest (by omega)
        simp [hz, hr]
      · have hc : r.count i = 0 := by
          rw [List.count_eq_zero]
          exact hr
        have h1 := ih (by omega)
        simp [h1, hr]

/-- Summed over all flattened nodes, the runs recover the whole table:
every occurrence of a face index in the binary coplanar table lies in
exactly the runs that slice it. -/
theorem run_count_sum (faces : List Face) (t : BSPTree) (i : Nat) :
    (((bfsOrder t).map (fun p =>
        (((tableIdxOf faces t).drop (startOf t p)).take
          (countOf t p)).count i)).sum)
      = (tableIdxOf faces t).count i := by
  have hbd : (bfsOrder t).Perm (dfsOrder t) := by
    refine (bfsOrder_perm t).trans ?_
    rw [dfsOrder_eq]
  rw [List.Perm.sum_eq (List.Perm.map _ hbd)]
  have hmc : (dfsOrder t).map (fun p =>
      (((tableIdxOf faces t).drop (startOf t p)).take (countOf t p)).count i)
      = (dfsOrder t).map (fun p =>
        ((fopAt t p).map (find_face_idx faces)).count i) := by
    apply List.map_congr_left
    intro p hp
    rw [tableIdxOf, ← List.map_drop, ← List.map_take, run_slice t p hp]
  rw [hmc]
  have hflat : (dfsOrder t).map (fun p =>
      ((fopAt t p).map (find_face_idx faces)).count i)
      = (((dfsOrder t).map (fun p =>
        (fopAt t p).map (find_face_idx faces))).map (List.count i)) := by
    rw [List.map_map]
    rfl
  rw [hflat, ← List.count_flatten]
  have : ((dfsOrder t).map (fun p =>
      (fopAt t p).map (find_face_idx faces))).flatten
      = tableIdxOf faces t := by
    rw [show (dfsOrder t).map (fun p =>
        (fopAt t p).map (find_face_idx faces))
      = ((dfsOrder t).map (fopAt t)).map
          (List.map (find_face_idx faces)) by rw [List.map_map]; rfl]
    rw [← List.map_flatten, tableIdxOf, tableFacesOf]
  rw [this]

/-- Amended C3 core: with pairwise-distinct well-formed faces, each
canonical face index lies in exactly one flattened node's coplanar run. -/
theorem coplanar_runs_partition (faces : List Face) (vertices : List Vec3)
    (t : BSPTree) (hnd : faces.Nodup) (h3 : ∀ f ∈ faces, 3 ≤ f.length)
    (ht : build_bsp faces vertices = .ok t) (i : Nat)
    (hi : i < faces.length) :
    (flatNodesOf faces t).countP (fun nd =>
      decide (i ∈ ((tableIdxOf faces t).drop
        nd.faces_on_plane_idx_start).take nd.faces_on_plane_count)) = 1 := by
  have hts : t = buildSpecRec vertices faces := by
    have h := build_bsp_eq_spec faces vertices h3
    rw [ht] at h
    exact (Except.ok.inj h)
  subst hts
  set T := buildSpecRec vertices faces with hT
  have hperm : (tableIdxOf faces T).Perm (List.range faces.length) := by
    rw [tableIdxOf, tableFacesOf_eq_allOn, ← map_find_face_idx faces hnd]
    exact List.Perm.map _
      (allOn_buildSpecRec_perm vertices faces.length faces (Nat.le_refl _))
  have hcount : (tableIdxOf faces T).count i = 1 := by
    rw [hperm.count_eq]
    exact List.count_eq_one_of_mem (List.nodup_range faces.length)
      (List.mem_range.mpr hi)
  have hsum : (((bfsOrder T).map (fun p =>
      ((tableIdxOf faces T).drop (startOf T p)).take (countOf T p))).map
        (fun r => r.count i)).sum = 1 := by
    rw [List.map_map]
    rw [show ((fun r : List Nat => r.count i) ∘ (fun p =>
        ((tableIdxOf faces T).drop (startOf T p)).take (countOf T p)))
      = (fun p => (((tableIdxOf faces T).drop (startOf T p)).take
          (countOf T p)).count i) from rfl]
    rw [run_count_sum faces T i, hcount]
  have hone := countP_mem_one_of_sum_one i _ hsum
  rw [List.countP_map] at hone
  rw [flatNodesOf, List.countP_map]
  rw [show ((fun nd : FlatNode => decide (i ∈ ((tableIdxOf faces T).drop
      nd.faces_on_plane_idx_start).take nd.faces_on_plane_count))
      ∘ mkFlatNode faces T)
    = ((fun r : List Nat => decide (i ∈ r)) ∘ (fun p =>
        ((tableIdxOf faces T).drop (startOf T p)).take (countOf T p)))
    from rfl]
  exact hone

/-!
## The binary encoder (`write_bsp_binary`, `BSP/obj_to_bsp.py` 469–498)

`struct.pack` raises `struct.error` when a value does not fit the field:
`<H` (u16) accepts `0 ≤ v < 65536`, `<B` (u8) accepts `0 ≤ v < 256`, `<h`
(i16) accepts `−32768 ≤ v ≤ 32767`; all multi-byte fields are
little-endian, `<h` uses two's complement.  The embedding produces the
byte stream as a `List Nat` (each element `< 256`) inside `Except`.

The 4-byte IEEE-754 `float32` payload of a vertex coordinate is outside
the integer-exact scope of this embedding; the encoder takes the codec as
an explicit function parameter `f32` and treats its bytes as opaque data
(`struct.pack '<f'` never fails on in-range floats, and no claim concerns
the float bit patterns).
-/

/-- `struct.pack '<B'`. -/
def packU8 (v : Nat) : Except String (List Nat) :=
  if v < 256 then .ok [v] else .error "ubyte format requires 0 <= number <= 255"

/-- `struct.pack '<H'` (little-endian). -/
def packU16 (v : Nat) : Except String (List Nat) :=
  if v < 65536 then .ok [v % 256, v / 256]
  else .error "ushort format requires 0 <= number <= 65535"

/-- `struct.pack '<h'` (little-endian two's complement). -/
def packI16 (v : Int) : Except String (List Nat) :=
  if -32768 ≤ v ∧ v ≤ 32767 then
    .ok [((v % 65536).toNat) % 256, ((v % 65536).toNat) / 256]
  else .error "short format requires -32768 <= number <= 32767"

/-- Sequential encoding of a list of records, aborting at the first
failure — the behaviour of the source's `for` loops over `f.write`. -/
def packList (g : α → Except String (List Nat)) :
    List α → Except String (List (List Nat))
  | [] => .ok []
  | x :: rest =>
    match g x with
    | .error e => .error e
    | .ok y =>
      match packList g rest with
      | .error e => .error e
      | .ok ys => .ok (y :: ys)

/-- Byte stream of one face record: `u8` vertex count then `u16`
vertex indices. -/
def packFace (face : Face) : Except String (List Nat) := do
  let c ← packU8 face.length
  let idxs ← packList packU16 face
  pure (c ++ idxs.flatten)

/-- Byte stream of one flattened node record. -/
def packNode (nd : FlatNode) : Except String (List Nat) := do
  let a ← packU16 nd.plane_face_idx
  let b ← packU16 nd.faces_on_plane_count
  let c ← packU16 nd.faces_on_plane_idx_start
  let d ← packI16 nd.front_node_idx
  let e ← packI16 nd.back_node_idx
  pure (a ++ b ++ c ++ d ++ e)

/-- `write_bsp_binary` (source `BSP/obj_to_bsp.py` lines 469–498, same
layout in `FixedPoint/export_bsp_bin.py` `write_bsp_bin`): header of three
`u16` counts, vertices as three `float32` each, face records, node
records, then the coplanar table as `u16` `find_face_idx` values. -/
def write_bsp_binary (f32 : ℚ → List Nat) (vertices : List Vec3)
    (faces : List Face) (nodes : List FlatNode) (table : List Face) :
    Except String (List Nat) := do
  let h1 ← packU16 vertices.length
  let h2 ← packU16 faces.length
  let h3 ← packU16 nodes.length
  let vb := (vertices.map (fun v => f32 v.1 ++ f32 v.2.1 ++ f32 v.2.2)).flatten
  let fb ← packList packFace faces
  let nb ← packList packNode nodes
  let tb ← packList (fun fc => packU16 (find_face_idx faces fc)) table
  pure (h1 ++ h2 ++ h3 ++ vb ++ fb.flatten ++ nb.flatten ++ tb.flatten)

/-- Steps 3–5 of `convert_obj_to_bsp` (source lines 549–576): build the
tree, flatten it, encode the binary.  (Steps 1–2 — OBJ parsing and
centering/scaling — are outside the specified core.) -/
def convert_obj_to_bsp (f32 : ℚ → List Nat) (vertices : List Vec3)
    (faces : List Face) : Except String (List Nat) := do
  let t ← build_bsp faces vertices
  write_bsp_binary f32 vertices faces (flatNodesOf faces t) (tableFacesOf t)

/-!
## Encoder range analysis
-/

theorem packU8_ok_iff (v : Nat) : (∃ r, packU8 v = .ok r) ↔ v < 256 := by
  unfold packU8
  split <;> simp_all

theorem packU16_ok_iff (v : Nat) : (∃ r, packU16 v = .ok r) ↔ v < 65536 := by
  unfold packU16
  split <;> simp_all

theorem packI16_ok_iff (v : Int) :
    (∃ r, packI16 v = .ok r) ↔ (-32768 ≤ v ∧ v ≤ 32767) := by
  unfold packI16
  split <;> simp_all

theorem exists_ok_bind {α β : Type} {e : Except String α}
    {g : α → Except String β} :
    (∃ r, (e >>= g) = .ok r) ↔ ∃ x, e = .ok x ∧ ∃ r, g x = .ok r := by
  cases e <;> simp [Bind.bind, Except.bind]

theorem packList_ok_iff {α : Type} (g : α → Except String (List Nat))
    (l : List α) :
    (∃ r, packList g l = .ok r) ↔ ∀ x ∈ l, ∃ y, g x = .ok y := by
  induction l with
  | nil => simp [packList]
  | cons x rest ih =>
      constructor
      · rintro ⟨r, hr⟩
        simp only [packList] at hr
        cases hg : g x with
        | error e =>
            rw [hg] at hr
            simp at hr
        | ok y =>
            rw [hg] at hr
            cases hp : packList g rest with
            | error e =>
                rw [hp] at hr
                simp at hr
            | ok ys =>
                intro z hz
                rcases List.mem_cons.mp hz with rfl | hz
                · exact ⟨y, hg⟩
                · exact (ih.mp ⟨ys, hp⟩) z hz
      · intro h
        obtain ⟨y, hy⟩ := h x (List.mem_cons_self x rest)
        obtain ⟨ys, hys⟩ := ih.mpr
          (fun z hz => h z (List.mem_cons_of_mem x hz))
        exact ⟨y :: ys, by simp [packList, hy, hys]⟩

theorem packFace_ok_iff (fc : Face) :
    (∃ r, packFace fc = .ok r) ↔
      (fc.length < 256 ∧ ∀ i ∈ fc, i < 65536) := by
  simp [packFace, exists_ok_bind, packU8_ok_iff, packList_ok_iff,
    packU16_ok_iff, pure, Except.pure]

theorem packNode_ok_iff (nd : FlatNode) :
    (∃ r, packNode nd = .ok r) ↔
      (nd.plane_face_idx < 65536 ∧ nd.faces_on_plane_count < 65536
        ∧ nd.faces_on_plane_idx_start < 65536
        ∧ (-32768 ≤ nd.front_node_idx ∧ nd.front_node_idx ≤ 32767)
        ∧ (-32768 ≤ nd.back_node_idx ∧ nd.back_node_idx ≤ 32767)) := by
  simp [packNode, exists_ok_bind, packU16_ok_iff, packI16_ok_iff,
    pure, Except.pure, and_assoc]

/-- Exact success condition of the encoder: every `u8`/`u16`/`i16` field
fits its range (`float32` vertex payloads never fail). -/
def encodeOKP (vertices : List Vec3) (faces : List Face)
    (nodes : List FlatNode) (table : List Face) : Prop :=
  vertices.length < 65536 ∧ faces.length < 65536 ∧ nodes.length < 65536
    ∧ (∀ fc ∈ faces, fc.length < 256 ∧ ∀ i ∈ fc, i < 65536)
    ∧ (∀ nd ∈ nodes, nd.plane_face_idx < 65536
        ∧ nd.faces_on_plane_count < 65536
        ∧ nd.faces_on_plane_idx_start < 65536
        ∧ (-32768 ≤ nd.front_node_idx ∧ nd.front_node_idx ≤ 32767)
        ∧ (-32768 ≤ nd.back_node_idx ∧ nd.back_node_idx ≤ 32767))
    ∧ (∀ fc ∈ table, find_face_idx faces fc < 65536)

theorem write_bsp_binary_ok_iff (f32 : ℚ → List Nat) (vertices : List Vec3)
    (faces : List Face) (nodes : List FlatNode) (table : List Face) :
    (∃ bs, write_bsp_binary f32 vertices faces nodes table = .ok bs)
      ↔ encodeOKP vertices faces nodes table := by
  simp [write_bsp_binary, exists_ok_bind, packU16_ok_iff, packList_ok_iff,
    packFace_ok_iff, packNode_ok_iff, pure, Except.pure, encodeOKP,
    and_assoc]

/-!
## Remaining node-level invariants
-/

/-- Every node's coplanar list is non-empty and contains the node's own
splitting face. -/
def nodesOK : BSPTree → Prop
  | .nil => True
  | .node pf fop f b => (pf ∈ fop ∧ fop ≠ []) ∧ nodesOK f ∧ nodesOK b

theorem nodesOK_buildRecIdx (faces : List Face) (planes : List RawPlane)
    (vertices : List Vec3) (n : Nat) :
    ∀ l : List Nat, l.length ≤ n →
      nodesOK (buildRecIdx faces planes vertices l) := by
  induction n with
  | zero =>
      intro l hl
      obtain rfl : l = [] := List.length_eq_zero.mp (Nat.le_zero.mp hl)
      rw [(buildRecIdx_eq_nil_iff _ _ _ _).mpr rfl]
      trivial
  | succ n ih =>
      intro l hl
      match l with
      | [] =>
        rw [(buildRecIdx_eq_nil_iff _ _ _ _).mpr rfl]
        trivial
      | fi :: fs =>
        have hfs : fs.length ≤ n := by
          simp only [List.length_cons] at hl
          omega
        rw [buildRecIdx_cons]
        refine ⟨⟨?_, by simp⟩, ?_, ?_⟩
        · simp
        · exact ih _ (le_trans (partitionIdx_front_le _ _ _ _) hfs)
        · exact ih _ (le_trans (partitionIdx_back_le _ _ _ _) hfs)

/-- Anatomy of a successful build: an empty face list yields the empty
tree, otherwise the planes precompute succeeded and the result is the
index-level recursive tree over `range faces.length`. -/
theorem build_bsp_ok_cases (faces : List Face) (vertices : List Vec3)
    (t : BSPTree) (ht : build_bsp faces vertices = .ok t) :
    (faces = [] ∧ t = .nil)
      ∨ ∃ planes, mapPlanes vertices faces = .ok planes
          ∧ t = buildRecIdx faces planes vertices
              (List.range faces.length) := by
  by_cases he : faces = []
  · left
    refine ⟨he, ?_⟩
    subst he
    simp only [build_bsp, List.isEmpty_nil, if_true] at ht
    exact (Except.ok.inj ht).symm
  · right
    have hEm : faces.isEmpty = false := by simpa [List.isEmpty_iff] using he
    cases hm : mapPlanes vertices faces with
    | error e =>
        exfalso
        simp only [build_bsp, hEm, Bool.false_eq_true, if_false, hm] at ht
        exact Except.noConfusion ht
    | ok planes =>
        refine ⟨planes, rfl, ?_⟩
        have h2 := build_bsp_eq_buildRecIdx faces vertices planes he hm
        rw [ht] at h2
        exact Except.ok.inj h2

theorem spanning_flags (f : Face) (pl : RawPlane) (vertices : List Vec3)
    (h : classify_face f pl vertices = .spanning) :
    classifyFlags f pl vertices = (true, true) := by
  rcases hfb : classifyFlags f pl vertices with ⟨bf, bb⟩
  rw [classify_face, hfb] at h
  cases bf <;> cases bb <;> simp_all

/-- A face whose every occurrence classifies as spanning never lands in
the coplanar or back group of the partition. -/
theorem spanning_not_on_back (faces : List Face) (pl : RawPlane)
    (vertices : List Vec3) (fi : Nat)
    (hcls : classify_face (faces.getD fi []) pl vertices = .spanning) :
    ∀ fs : List Nat, fi ∉ (partitionIdx faces pl vertices fs).1
      ∧ fi ∉ (partitionIdx faces pl vertices fs).2.2 := by
  intro fs
  induction fs with
  | nil => simp [partitionIdx]
  | cons x rest ih =>
      simp only [partitionIdx, classifyFlagsEarly_eq_flags]
      by_cases hx : x = fi
      · subst hx
        rw [spanning_flags _ _ _ hcls]
        simpa using ih
      · rcases hfb : classifyFlags (faces.getD x []) pl vertices
          with ⟨bf, bb⟩
        cases bf <;> cases bb <;>
          · simp_all [List.mem_cons]
            try omega

/-- A spanning face always lands (whole) in the front group. -/
theorem spanning_mem_front (faces : List Face) (pl : RawPlane)
    (vertices : List Vec3) (fi : Nat)
    (hcls : classify_face (faces.getD fi []) pl vertices = .spanning) :
    ∀ fs : List Nat, fi ∈ fs →
      fi ∈ (partitionIdx faces pl vertices fs).2.1 := by
  intro fs
  induction fs with
  | nil => intro h; simp at h
  | cons x rest ih =>
      intro hmem
      simp only [partitionIdx, classifyFlagsEarly_eq_flags]
      rcases List.mem_cons.mp hmem with rfl | hmem'
      · rw [spanning_flags _ _ _ hcls]
        simp
      · rcases hfb : classifyFlags (faces.getD x []) pl vertices
          with ⟨bf, bb⟩
        cases bf <;> cases bb <;> simp_all [List.mem_cons]

/-!
## Field decoders

Little-endian readers for the two integer field widths of the layout, used
to state that stored integers survive the encoding.
-/

/-- Value of a little-endian `u16` byte pair. -/
def decodeU16 (b0 b1 : Nat) : Nat := b0 + 256 * b1

/-- Value of a little-endian two's-complement `i16` byte pair. -/
def decodeI16 (b0 b1 : Nat) : Int :=
  if b0 + 256 * b1 < 32768 then ((b0 + 256 * b1 : Nat) : Int)
  else ((b0 + 256 * b1 : Nat) : Int) - 65536

theorem packU16_roundtrip (v : Nat) (h : v < 65536) :
    packU16 v = .ok [v % 256, v / 256]
      ∧ decodeU16 (v % 256) (v / 256) = v := by
  refine ⟨by simp [packU16, h], ?_⟩
  unfold decodeU16
  omega

theorem packI16_roundtrip (z : Int) (h1 : -32768 ≤ z) (h2 : z ≤ 32767) :
    packI16 z = .ok [(z % 65536).toNat % 256, (z % 65536).toNat / 256]
      ∧ decodeI16 ((z % 65536).toNat % 256) ((z % 65536).toNat / 256) = z := by
  refine ⟨by simp [packI16, h1, h2], ?_⟩
  unfold decodeI16
  split <;> omega

/-!
## Claim-level theorems

One theorem per specification claim, stated over the definitions above.
-/

/-- C1: refuted as stated — when the flattener's splitting-face lookup
misses (a node's splitting face is absent from the canonical face array,
reachable through the JSON-driven `export_bsp_bin.py` entry point), the
run does NOT fail fast: `find_face_idx` returns the sentinel `0xFFFF`,
`write_bsp_binary` performs no sentinel check, and a finished byte stream
is produced whose `planeFaceIdx` field holds `255, 255`. -/
theorem C1_lookup_miss_writes_finished_file :
    find_face_idx [[0, 1, 2]] [9, 9, 9] = 65535 ∧
    write_bsp_binary (fun _ => [0, 0, 0, 0]) [] [[0, 1, 2]]
      (flatNodesOf [[0, 1, 2]] (.node [9, 9, 9] [[9, 9, 9]] .nil .nil))
      (tableFacesOf (.node [9, 9, 9] [[9, 9, 9]] .nil .nil)) =
      .ok [0, 0, 1, 0, 1, 0, 3, 0, 0, 1, 0, 2, 0,
           255, 255, 1, 0, 0, 0, 255, 255, 255, 255, 255, 255] :=
  ⟨by decide, by decide⟩

/-- C2: the iterative work-list construction of `obj_to_bsp.build_bsp`
produces exactly the tree of the recursive construction following the
spec's steps 1–4 (first face as splitter joining the coplanar set, others
classified with spanning → front, recursion on both partitions), for every
face list with well-formed faces. -/
theorem C2_worklist_build_matches_recursive_steps (faces : List Face)
    (vertices : List Vec3) (h3 : ∀ f ∈ faces, 3 ≤ f.length)
    (_hrange : ∀ f ∈ faces, ∀ i ∈ f, i < vertices.length) :
    build_bsp faces vertices = .ok (buildSpecRec vertices faces) :=
  build_bsp_eq_spec faces vertices h3

theorem C2_worklist_build_matches_recursive_steps_witness :
    build_bsp [[0, 1, 2], [3, 4, 5]]
      [(0, 0, 0), (1, 0, 0), (0, 1, 0), (0, 0, 1), (1, 0, 1), (0, 1, 1)] =
      .ok (buildSpecRec
        [(0, 0, 0), (1, 0, 0), (0, 1, 0), (0, 0, 1), (1, 0, 1), (0, 1, 1)]
        [[0, 1, 2], [3, 4, 5]]) :=
  C2_worklist_build_matches_recursive_steps _ _ (by decide) (by decide)

/-- C3: refuted as stated for face lists with repeated faces — with the
duplicate list `[[0,1,2],[0,1,2]]` both copies are coplanar with the root
plane, the value-equality lookup resolves both table entries to canonical
index `0`, and canonical index `1` appears in no node's coplanar run
(count `0`, not `1`). -/
theorem C3_counterexample_duplicate_face :
    build_bsp [[0, 1, 2], [0, 1, 2]] [(0, 0, 0), (1, 0, 0), (0, 1, 0)] =
      .ok (.node [0, 1, 2] [[0, 1, 2], [0, 1, 2]] .nil .nil) ∧
    (1 : Nat) < ([[0, 1, 2], [0, 1, 2]] : List Face).length ∧
    (flatNodesOf [[0, 1, 2], [0, 1, 2]]
        (.node [0, 1, 2] [[0, 1, 2], [0, 1, 2]] .nil .nil)).countP
      (fun nd => decide (1 ∈ ((tableIdxOf [[0, 1, 2], [0, 1, 2]]
        (.node [0, 1, 2] [[0, 1, 2], [0, 1, 2]] .nil .nil)).drop
          nd.faces_on_plane_idx_start).take nd.faces_on_plane_count)) = 0 :=
  ⟨by decide, by decide, by decide⟩

/-- C3 (amended): for every face list of pairwise-distinct well-formed
faces, after building and flattening every canonical face index appears in
exactly one node's `(start, count)` coplanar run of the shared table. -/
theorem C3_runs_partition_indices_distinct_faces (faces : List Face)
    (vertices : List Vec3) (t : BSPTree) (hnd : faces.Nodup)
    (h3 : ∀ f ∈ faces, 3 ≤ f.length)
    (ht : build_bsp faces vertices = .ok t) (i : Nat)
    (hi : i < faces.length) :
    (flatNodesOf faces t).countP (fun nd =>
      decide (i ∈ ((tableIdxOf faces t).drop
        nd.faces_on_plane_idx_start).take nd.faces_on_plane_count)) = 1 :=
  coplanar_runs_partition faces vertices t hnd h3 ht i hi

theorem C3_runs_partition_indices_distinct_faces_witness :
    (flatNodesOf [[0, 1, 2], [3, 4, 5]]
        (.node [0, 1, 2] [[0, 1, 2]]
          (.node [3, 4, 5] [[3, 4, 5]] .nil .nil) .nil)).countP
      (fun nd => decide ((0 : Nat) ∈
        ((tableIdxOf [[0, 1, 2], [3, 4, 5]]
          (.node [0, 1, 2] [[0, 1, 2]]
            (.node [3, 4, 5] [[3, 4, 5]] .nil .nil) .nil)).drop
          nd.faces_on_plane_idx_start).take nd.faces_on_plane_count)) = 1 :=
  C3_runs_partition_indices_distinct_faces [[0, 1, 2], [3, 4, 5]]
    [(0, 0, 0), (1, 0, 0), (0, 1, 0), (0, 0, 1), (1, 0, 1), (0, 1, 1)]
    (.node [0, 1, 2] [[0, 1, 2]] (.node [3, 4, 5] [[3, 4, 5]] .nil .nil) .nil)
    (by decide) (by decide) (by decide) 0 (by decide)

/-- C4: in every tree the builder returns, every node's coplanar face list
is non-empty and contains the node's own splitting face. -/
theorem C4_every_node_coplanar_contains_splitter (faces : List Face)
    (vertices : List Vec3) (t : BSPTree)
    (ht : build_bsp faces vertices = .ok t) : nodesOK t := by
  rcases build_bsp_ok_cases faces vertices t ht with ⟨-, rfl⟩ | ⟨planes, -, rfl⟩
  · trivial
  · exact nodesOK_buildRecIdx faces planes vertices _ _ le_rfl

theorem C4_every_node_coplanar_contains_splitter_witness :
    nodesOK (.node [0, 1, 2] [[0, 1, 2]]
      (.node [3, 4, 5] [[3, 4, 5]] .nil .nil) .nil) :=
  C4_every_node_coplanar_contains_splitter [[0, 1, 2], [3, 4, 5]]
    [(0, 0, 0), (1, 0, 0), (0, 1, 0), (0, 0, 1), (1, 0, 1), (0, 1, 1)]
    _ (by decide)

/-- C5: a face classified as spanning against the current splitting plane
is placed whole into the front partition; it never appears in the back
partition and never in the coplanar group, for every occurrence in the
work list — the partition step never divides it. -/
theorem C5_spanning_face_goes_whole_to_front (faces : List Face)
    (pl : RawPlane) (vertices : List Vec3) (fi : Nat) (fs : List Nat)
    (hcls : classify_face (faces.getD fi []) pl vertices = .spanning)
    (hmem : fi ∈ fs) :
    fi ∈ (partitionIdx faces pl vertices fs).2.1
      ∧ fi ∉ (partitionIdx faces pl vertices fs).2.2
      ∧ fi ∉ (partitionIdx faces pl vertices fs).1 :=
  ⟨spanning_mem_front faces pl vertices fi hcls fs hmem,
   (spanning_not_on_back faces pl vertices fi hcls fs).2,
   (spanning_not_on_back faces pl vertices fi hcls fs).1⟩

theorem C5_spanning_face_goes_whole_to_front_witness :
    1 ∈ (partitionIdx [[0, 1, 2], [3, 4, 5]]
          { point := (0, 0, 0), normal := (0, 0, 1) }
          [(0, 0, 0), (1, 0, 0), (0, 1, 0), (0, 0, 1), (1, 0, -1), (0, 1, 1)]
          [1]).2.1
      ∧ 1 ∉ (partitionIdx [[0, 1, 2], [3, 4, 5]]
          { point := (0, 0, 0), normal := (0, 0, 1) }
          [(0, 0, 0), (1, 0, 0), (0, 1, 0), (0, 0, 1), (1, 0, -1), (0, 1, 1)]
          [1]).2.2
      ∧ 1 ∉ (partitionIdx [[0, 1, 2], [3, 4, 5]]
          { point := (0, 0, 0), normal := (0, 0, 1) }
          [(0, 0, 0), (1, 0, 0), (0, 1, 0), (0, 0, 1), (1, 0, -1), (0, 1, 1)]
          [1]).1 :=
  C5_spanning_face_goes_whole_to_front [[0, 1, 2], [3, 4, 5]]
    { point := (0, 0, 0), normal := (0, 0, 1) }
    [(0, 0, 0), (1, 0, 0), (0, 1, 0), (0, 0, 1), (1, 0, -1), (0, 1, 1)]
    1 [1] (by decide) (by decide)

/-- C6: the tree the builder returns has at most one node per input face,
and the flattened node array has exactly one record per tree node, so
`nodeCount ≤ faceCount`. -/
theorem C6_node_count_le_face_count (faces : List Face)
    (vertices : List Vec3) (t : BSPTree)
    (ht : build_bsp faces vertices = .ok t) :
    bsize t ≤ faces.length ∧ (flatNodesOf faces t).length = bsize t := by
  constructor
  · rcases build_bsp_ok_cases faces vertices t ht
      with ⟨rfl, rfl⟩ | ⟨planes, -, rfl⟩
    · simp [bsize]
    · have h := bsize_buildRecIdx_le faces planes vertices faces.length
        (List.range faces.length) (by simp)
      simpa using h
  · simp [flatNodesOf, bfsOrder_length]

theorem C6_node_count_le_face_count_witness :
    bsize (.node [0, 1, 2] [[0, 1, 2]]
        (.node [3, 4, 5] [[3, 4, 5]] .nil .nil) .nil) ≤
      ([[0, 1, 2], [3, 4, 5]] : List Face).length
    ∧ (flatNodesOf [[0, 1, 2], [3, 4, 5]]
        (.node [0, 1, 2] [[0, 1, 2]]
          (.node [3, 4, 5] [[3, 4, 5]] .nil .nil) .nil)).length =
      bsize (.node [0, 1, 2] [[0, 1, 2]]
        (.node [3, 4, 5] [[3, 4, 5]] .nil .nil) .nil) :=
  C6_node_count_le_face_count [[0, 1, 2], [3, 4, 5]]
    [(0, 0, 0), (1, 0, 0), (0, 1, 0), (0, 0, 1), (1, 0, 1), (0, 1, 1)]
    _ (by decide)

/-- C7: the build–flatten–encode pipeline is a pure function of the vertex
sequence, the face sequence, and the float codec: equal inputs give
byte-identical output and an identical built tree. -/
theorem C7_pipeline_deterministic (f32 : ℚ → List Nat)
    (v1 v2 : List Vec3) (f1 f2 : List Face)
    (hv : v1 = v2) (hf : f1 = f2) :
    convert_obj_to_bsp f32 v1 f1 = convert_obj_to_bsp f32 v2 f2
      ∧ build_bsp f1 v1 = build_bsp f2 v2 := by
  rw [hv, hf]
  exact ⟨rfl, rfl⟩

theorem C7_pipeline_deterministic_witness :
    convert_obj_to_bsp (fun _ => [0, 0, 0, 0]) [(0, 0, 0)] [] =
      convert_obj_to_bsp (fun _ => [0, 0, 0, 0]) [(0, 0, 0)] []
    ∧ build_bsp [] [(0, 0, 0)] = build_bsp [] [(0, 0, 0)] :=
  C7_pipeline_deterministic (fun _ => [0, 0, 0, 0])
    [(0, 0, 0)] [(0, 0, 0)] [] [] rfl rfl

/-- C8: a face of at least three vertices whose first two edge vectors
have a zero-magnitude cross product (in particular, first three vertices
collinear) does not make the plane computation fail: it returns the plane
through the face's first vertex with the default normal `(0, 0, 1)`, and
classification against that plane is an ordinary total computation. -/
theorem C8_degenerate_cross_gives_default_normal (face : Face)
    (vertices : List Vec3) (h3 : 3 ≤ face.length)
    (hz : nsq (crossv
        (subv (vtx vertices (face.getD 1 0)) (vtx vertices (face.getD 0 0)))
        (subv (vtx vertices (face.getD 2 0)) (vtx vertices (face.getD 0 0))))
      = 0) :
    face_plane face vertices =
      .ok { point := vtx vertices (face.getD 0 0), normal := (0, 0, 1) } := by
  rw [face_plane, if_neg (by omega)]
  simp only [face_planeCore]
  rw [if_pos hz]

theorem C8_degenerate_cross_gives_default_normal_witness :
    face_plane [0, 1, 2] [(0, 0, 0), (1, 0, 1), (2, 0, 2)] =
      .ok { point := (0, 0, 0), normal := (0, 0, 1) } :=
  C8_degenerate_cross_gives_default_normal [0, 1, 2]
    [(0, 0, 0), (1, 0, 1), (2, 0, 2)] (by decide) (by decide)

/-- C9: the plane computation fails exactly on faces with fewer than three
vertices; on a face with at least three vertices it returns a plane. -/
theorem C9_plane_error_iff_short_face (face : Face) (vertices : List Vec3)
    (_hrange : ∀ i ∈ face, i < vertices.length) :
    ((∃ e, face_plane face vertices = .error e) ↔ face.length < 3)
      ∧ (3 ≤ face.length →
          face_plane face vertices = .ok (face_planeCore face vertices)) := by
  constructor
  · constructor
    · rintro ⟨e, he⟩
      by_contra hge
      rw [face_plane, if_neg hge] at he
      exact Except.noConfusion he
    · intro h
      rw [face_plane, if_pos h]
      exact ⟨_, rfl⟩
  · intro h3
    rw [face_plane, if_neg (by omega)]

theorem C9_plane_error_iff_short_face_witness :
    ((∃ e, face_plane [0, 1, 2] [(0, 0, 0), (1, 0, 0), (0, 1, 0)] = .error e)
        ↔ ([0, 1, 2] : Face).length < 3)
      ∧ (3 ≤ ([0, 1, 2] : Face).length →
          face_plane [0, 1, 2] [(0, 0, 0), (1, 0, 0), (0, 1, 0)] =
            .ok (face_planeCore [0, 1, 2] [(0, 0, 0), (1, 0, 0), (0, 1, 0)])) :=
  C9_plane_error_iff_short_face [0, 1, 2]
    [(0, 0, 0), (1, 0, 0), (0, 1, 0)] (by decide)

/-- C10: refuted as stated — a node record whose child index is `32768`
(below 65536, so inside the bounds the claim allows) makes the encoder
fail, because child indices go through `struct.pack` format `h`, a SIGNED
16-bit field with range `[-32768, 32767]`, not 65536. -/
theorem C10_counterexample_child_index_32768 :
    (32768 : Nat) < 65536 ∧
    write_bsp_binary (fun _ => [0, 0, 0, 0]) [] []
      [{ plane_face_idx := 0, faces_on_plane_count := 0,
         faces_on_plane_idx_start := 0, front_node_idx := 32768,
         back_node_idx := -1 }] [] =
      .error "short format requires -32768 <= number <= 32767" :=
  ⟨by decide, by decide⟩

/-- C10 (amended): the encoder succeeds exactly when every face has at
most 255 vertices with indices below 65536, the three counts and the
per-node unsigned fields are below 65536, and the two child indices lie in
the SIGNED 16-bit range `[-32768, 32767]`; on success the `u16` fields
decode back to their source values and the `i16` child fields decode back
through two's complement to their source values. -/
theorem C10_encoder_bounds_and_value_preservation (f32 : ℚ → List Nat)
    (vertices : List Vec3) (faces : List Face) (nodes : List FlatNode)
    (table : List Face) :
    ((∃ bs, write_bsp_binary f32 vertices faces nodes table = .ok bs)
        ↔ encodeOKP vertices faces nodes table)
      ∧ (∀ v : Nat, v < 65536 →
          packU16 v = .ok [v % 256, v / 256]
            ∧ decodeU16 (v % 256) (v / 256) = v)
      ∧ (∀ z : Int, -32768 ≤ z → z ≤ 32767 →
          packI16 z = .ok [(z % 65536).toNat % 256, (z % 65536).toNat / 256]
            ∧ decodeI16 ((z % 65536).toNat % 256)
                ((z % 65536).toNat / 256) = z) :=
  ⟨write_bsp_binary_ok_iff f32 vertices faces nodes table,
   fun v hv => packU16_roundtrip v hv,
   fun z h1 h2 => packI16_roundtrip z h1 h2⟩

theorem C10_encoder_bounds_and_value_preservation_witness :
    (∃ bs, write_bsp_binary (fun _ => [0, 0, 0, 0]) [] [] [] [] = .ok bs)
      ∧ (packU16 300 = .ok [300 % 256, 300 / 256]
          ∧ decodeU16 (300 % 256) (300 / 256) = 300)
      ∧ (packI16 (-1) =
            .ok [((-1 : Int) % 65536).toNat % 256,
                 ((-1 : Int) % 65536).toNat / 256]
          ∧ decodeI16 (((-1 : Int) % 65536).toNat % 256)
              (((-1 : Int) % 65536).toNat / 256) = -1) :=
  ⟨(C10_encoder_bounds_and_value_preservation (fun _ => [0, 0, 0, 0])
      [] [] [] []).1.mpr (by unfold encodeOKP; decide),
   (C10_encoder_bounds_and_value_preservation (fun _ => [0, 0, 0, 0])
      [] [] [] []).2.1 300 (by decide),
   (C10_encoder_bounds_and_value_preservation (fun _ => [0, 0, 0, 0])
      [] [] [] []).2.2 (-1) (by decide) (by decide)⟩
